import Mathlib

/-!
Verification development for the `laravel-i18n-audit` tool.

The JavaScript sources (`scanner.js`, `loaders.js`, `validators.js`, `index.js`)
are shallowly embedded below.  Strings are modelled as `List Char` (JavaScript
strings are sequences of UTF-16 code units; all inputs of interest are ASCII,
where the two notions agree), machine integers as `Nat`/`Int`, regular
expressions as dedicated scanning functions implementing exactly the
backtracking behaviour of the concrete regex literal they embed, and
JavaScript objects used as dictionaries as insertion-ordered association
lists.  All definitions are fuel-based or structurally recursive so that they
evaluate by kernel reduction.
-/

namespace I18nAudit


/-! ## Character classes and basic string utilities -/

/-- Single-quote character (code 39). -/
def qS : Char := Char.ofNat 39

/-- Double-quote character (code 34). -/
def qD : Char := Char.ofNat 34

/-- Backtick character (code 96). -/
def qB : Char := Char.ofNat 96

/-- Left curly brace (code 123). -/
def lbr : Char := Char.ofNat 123

/-- Right curly brace (code 125). -/
def rbr : Char := Char.ofNat 125

/-- JavaScript regex `\s` for the ASCII range: space, tab, newline, carriage
return, vertical tab, form feed. -/
def isWsChar (c : Char) : Bool :=
  c = ' ' || c = '\t' || c = '\n' || c = '\r' || c = Char.ofNat 11 || c = Char.ofNat 12

/-- JavaScript regex `\w`: ASCII letters, digits and underscore. -/
def isWordChar (c : Char) : Bool :=
  (97 ≤ c.toNat && c.toNat ≤ 122) || (65 ≤ c.toNat && c.toNat ≤ 90) ||
  (48 ≤ c.toNat && c.toNat ≤ 57) || c = '_'

/-- ASCII letter (for the `[a-zA-Z_]` class minus underscore). -/
def isAsciiLetter (c : Char) : Bool :=
  (97 ≤ c.toNat && c.toNat ≤ 122) || (65 ≤ c.toNat && c.toNat ≤ 90)

/-- ASCII digit. -/
def isDigitChar (c : Char) : Bool := 48 ≤ c.toNat && c.toNat ≤ 57

/-- The three quote characters accepted by the extraction patterns. -/
def isQuoteChar (c : Char) : Bool := c = qS || c = qD || c = qB

/-- `String.prototype.toLowerCase` restricted to ASCII. -/
def lowerChar (c : Char) : Char :=
  if 65 ≤ c.toNat && c.toNat ≤ 90 then Char.ofNat (c.toNat + 32) else c

/-- `String.prototype.split('\n')`. -/
def splitLinesL : List Char → List (List Char)
  | [] => [[]]
  | c :: rest =>
    if c = '\n' then [] :: splitLinesL rest
    else
      match splitLinesL rest with
      | [] => [[c]]
      | h :: t => (c :: h) :: t

/-- `Array.prototype.join('\n')`. -/
def joinNL : List (List Char) → List Char
  | [] => []
  | [l] => l
  | l :: rest => l ++ '\n' :: joinNL rest

/-- `String.prototype.trim`. -/
def jsTrim (s : List Char) : List Char :=
  ((s.dropWhile isWsChar).reverse.dropWhile isWsChar).reverse

/-- Does `pat` occur at the start of `s`? (`String.prototype.startsWith`.) -/
def startsWithL : List Char → List Char → Bool
  | [], _ => true
  | _ :: _, [] => false
  | p :: ps, c :: cs => p = c && startsWithL ps cs

/-- Does `pat` occur at the end of `s`? (`String.prototype.endsWith`.) -/
def endsWithL (pat s : List Char) : Bool :=
  startsWithL pat.reverse s.reverse

/-- Does `pat` occur anywhere in `s` as a contiguous substring? -/
def hasSubL (pat : List Char) : List Char → Bool
  | [] => startsWithL pat []
  | c :: rest => startsWithL pat (c :: rest) || hasSubL pat rest

/-- Number of occurrences of a character in a string. -/
def countCh (c : Char) (s : List Char) : Nat :=
  s.foldl (fun n c2 => if c2 = c then n + 1 else n) 0

/-- First index of a character in a string (`String.prototype.indexOf`). -/
def idxOfCh (c : Char) : List Char → Option Nat
  | [] => none
  | c2 :: rest =>
    if c2 = c then some 0
    else (idxOfCh c rest).map (· + 1)

/-- Decimal digits of a natural number, as characters (`${n}` interpolation). -/
def natToCharsAux : Nat → Nat → List Char → List Char
  | 0, _, acc => acc
  | fuel + 1, n, acc =>
    let d := Char.ofNat (48 + n % 10)
    if n < 10 then d :: acc else natToCharsAux fuel (n / 10) (d :: acc)

/-- Decimal representation of a natural number. -/
def natToChars (n : Nat) : List Char := natToCharsAux (n + 1) n []

/-- Greedy run of characters satisfying `p` plus the remaining input. -/
def spanP (p : Char → Bool) : List Char → List Char × List Char
  | [] => ([], [])
  | c :: rest =>
    if p c then
      let (run, r2) := spanP p rest
      (c :: run, r2)
    else ([], c :: rest)

/-- Skip a `\s*` run, returning how many characters were skipped and the rest. -/
def skipWs : List Char → Nat × List Char
  | [] => (0, [])
  | c :: rest =>
    if isWsChar c then
      let (n, r) := skipWs rest
      (n + 1, r)
    else (0, c :: rest)

/-- Split a string at every occurrence of a separator character. -/
def splitOnCh (sep : Char) : List Char → List (List Char)
  | [] => [[]]
  | c :: rest =>
    if c = sep then [] :: splitOnCh sep rest
    else
      match splitOnCh sep rest with
      | [] => [[c]]
      | h :: t => (c :: h) :: t

/-- Join a list of strings with a separator character. -/
def joinWithCh (sep : Char) : List (List Char) → List Char
  | [] => []
  | [l] => l
  | l :: rest => l ++ sep :: joinWithCh sep rest

/-! ## Ignore-pattern matcher (`parseGitignore` / `matchPattern`, scanner.js) -/

/-- One parsed ignore rule: `{patternText, negated, directoryOnly, rootAnchored}`. -/
structure GRule where
  pat : List Char
  negated : Bool
  dirOnly : Bool
  rooted : Bool
deriving DecidableEq, Repr

/-- Parse one line of the ignore file, mirroring the line loop of
`parseGitignore`: a `#` at index 0 drops the line, a later `#` truncates it;
the result is trimmed; blank lines are dropped; then one leading `!`
(negation), one trailing `/` (directory-only) and one leading `/`
(root-anchored) are stripped. -/
def parseGitLine (line : List Char) : Option GRule :=
  let ci := idxOfCh '#' line
  if ci = some 0 then none
  else
    let l1 := match ci with
      | some n => line.take n
      | none => line
    let l2 := jsTrim l1
    if l2.isEmpty then none
    else
      let (neg, l3) := match l2 with
        | c :: rest => if c = '!' then (true, rest) else (false, l2)
        | [] => (false, l2)
      let (dOnly, l4) :=
        if l3.getLast? = some '/' then (true, l3.dropLast) else (false, l3)
      let (rooted, l5) := match l4 with
        | c :: rest => if c = '/' then (true, rest) else (false, l4)
        | [] => (false, l4)
      some ⟨l5, neg, dOnly, rooted⟩

/-- Parse the whole ignore-file text into rules, in file order. -/
def parseGitignoreL (content : List Char) : List GRule :=
  (splitLinesL content).filterMap parseGitLine

/-- Tokens of the glob-to-regex translation used by `matchPattern`:
`**` becomes "match anything", `*` "anything but `/`", `?` "one non-`/`
character"; every other character (the code escapes `.`) is literal. -/
inductive GTok where
  | dstar
  | star
  | quest
  | lit (c : Char)
deriving DecidableEq, Repr

/-- Tokenize a glob pattern (`**` is replaced before `*`, as in the code). -/
def globToks : List Char → List GTok
  | [] => []
  | '*' :: '*' :: rest => .dstar :: globToks rest
  | '*' :: rest => .star :: globToks rest
  | '?' :: rest => .quest :: globToks rest
  | c :: rest => .lit c :: globToks rest

/-- Acceptance condition of the anchored regex `^pattern(/|$)`: the remaining
input is empty or starts with `/` (this subsumes the separate `^pattern$`
test performed by the code). -/
def globTailOk : List Char → Bool
  | [] => true
  | c :: _ => c = '/'

/-- Backtracking matcher for the translated glob, with fuel (the fuel is
always sufficient: every recursive call decreases `toks.length + s.length`). -/
def globT : Nat → List GTok → List Char → Bool
  | 0, _, _ => false
  | _ + 1, [], s => globTailOk s
  | fuel + 1, .dstar :: ts, s =>
    globT fuel ts s ||
      (match s with
       | _ :: s2 => globT fuel (.dstar :: ts) s2
       | [] => false)
  | fuel + 1, .star :: ts, s =>
    globT fuel ts s ||
      (match s with
       | c :: s2 => if c = '/' then false else globT fuel (.star :: ts) s2
       | [] => false)
  | fuel + 1, .quest :: ts, s =>
    (match s with
     | c :: s2 => if c = '/' then false else globT fuel ts s2
     | [] => false)
  | fuel + 1, .lit c :: ts, s =>
    (match s with
     | c2 :: s2 => c = c2 && globT fuel ts s2
     | [] => false)

/-- `matchPattern(testPath, pattern)`: literal equality, then the translated
glob anchored at the start of the path, accepting at `/` or end of input. -/
def matchPatternL (testPath pat : List Char) : Bool :=
  if pat = testPath then true
  else
    let toks := globToks pat
    globT (toks.length + testPath.length + 1) toks testPath

/-- The component-sliced suffixes of a relative path: for `a/b/c` the list
`[a/b/c, b/c, c]` (mirrors the `pathParts.slice(i).join(sep)` loop). -/
def pathSuffixSlices (rel : List Char) : List (List Char) :=
  go (splitOnCh '/' rel)
where
  go : List (List Char) → List (List Char)
    | [] => []
    | p :: rest => joinWithCh '/' (p :: rest) :: go rest

/-- The predicate returned by `parseGitignore`, evaluated on the path
relative to the base directory (`path.relative(baseDir, filePath)` is
computed by the caller's runtime and is external to this model).  Paths that
are empty or escape the base directory are never ignored; otherwise every
rule is evaluated in order and the last matching rule wins, with negation
flipping the status. -/
def isGitignoredL (rules : List GRule) (rel : List Char) (isDirectory : Bool) : Bool :=
  if rel.isEmpty || startsWithL "..".data rel then false
  else
    rules.foldl
      (fun ign r =>
        if r.dirOnly && !isDirectory then ign
        else
          let matched :=
            if r.rooted then matchPatternL rel r.pat
            else
              matchPatternL rel r.pat ||
                (pathSuffixSlices rel).any (fun sub => matchPatternL sub r.pat)
          if matched then !r.negated else ign)
      false

/-- String-level wrapper for the ignore predicate. -/
def isGitignored (rules : List GRule) (rel : String) (isDirectory : Bool) : Bool :=
  isGitignoredL rules rel.data isDirectory

/-- The rule list `["build/", "!build/keep.txt"]` of the precedence example. -/
def c1Rules : List GRule := parseGitignoreL "build/\n!build/keep.txt".data

/-! ## Parameter extraction (`extractParams`, scanner.js) -/

/-- Lexicographic comparison of strings by code unit, the default
`Array.prototype.sort` comparator for strings. -/
def leKey : List Char → List Char → Bool
  | [], _ => true
  | _ :: _, [] => false
  | a :: as, b :: bs =>
    if a.toNat < b.toNat then true
    else if b.toNat < a.toNat then false
    else leKey as bs

/-- `Set.prototype.add`: append if not already present (insertion order). -/
def setAdd (xs : List (List Char)) (x : List Char) : List (List Char) :=
  if x ∈ xs then xs else xs ++ [x]

/-- Insert into a `leKey`-sorted list, keeping it sorted. -/
def insSorted (x : List Char) : List (List Char) → List (List Char)
  | [] => [x]
  | y :: rest => if leKey x y then x :: y :: rest else y :: insSorted x rest

/-- Insertion sort by `leKey` (models `Array.prototype.sort()` on strings). -/
def sortKeys : List (List Char) → List (List Char)
  | [] => []
  | x :: rest => insSorted x (sortKeys rest)

/-- All matches of `/:(\w+)/g`: at each `:` take the maximal nonempty `\w+`
run; on failure the engine advances by one character. -/
def colonScanF : Nat → List Char → List (List Char)
  | 0, _ => []
  | _ + 1, [] => []
  | fuel + 1, c :: rest =>
    if c = ':' then
      let (run, r2) := spanP isWordChar rest
      if run.isEmpty then colonScanF fuel rest
      else run :: colonScanF fuel r2
    else colonScanF fuel rest

/-- All `\w+` captures of `/:(\w+)/g` over the input. -/
def colonScan (s : List Char) : List (List Char) := colonScanF (s.length + 1) s

/-- All matches of `/\x7b(\w+)\x7d/g`: an opening brace, a maximal nonempty
`\w+` run, a closing brace. -/
def braceScanF : Nat → List Char → List (List Char)
  | 0, _ => []
  | _ + 1, [] => []
  | fuel + 1, c :: rest =>
    if c = lbr then
      let (run, r2) := spanP isWordChar rest
      match r2 with
      | c2 :: r3 =>
        if !run.isEmpty && c2 = rbr then run :: braceScanF fuel r3
        else braceScanF fuel rest
      | [] => braceScanF fuel rest
    else braceScanF fuel rest

/-- All brace captures over the input. -/
def braceScan (s : List Char) : List (List Char) := braceScanF (s.length + 1) s

/-- `extractParams`: collect `:param` captures, then `\x7bparam\x7d` captures
whose content is not purely digits (those are pluralization markers), into a
set in insertion order, and return the sorted array. -/
def extractParamsL (t : List Char) : List (List Char) :=
  let colonParams := colonScan t
  let braceParams := (braceScan t).filter (fun run => !run.all isDigitChar)
  sortKeys ((colonParams ++ braceParams).foldl setAdd [])

/-- String-level wrapper for `extractParams` (string input case; non-string
input returns `[]` in the code and is handled at the loader level). -/
def extractParams (t : String) : List (List Char) := extractParamsL t.data

/-! ## Pluralization extraction (`extractPlurals`, scanner.js) -/

/-- A pluralization rule: exact count `(N)` or range `[N,M]` / `[N,*]`
(`hi = none` encodes the unbounded `*`). -/
inductive PRule where
  | exact (n : Nat)
  | range (lo : Nat) (hi : Option Nat)
deriving DecidableEq, Repr

/-- Pluralization metadata: the ordered rules and the raw source string. -/
structure PluralInfo where
  rules : List PRule
  raw : List Char
deriving DecidableEq, Repr

/-- `parseInt(run, 10)` for a nonempty digit run. -/
def digitsToNat (run : List Char) : Nat :=
  run.foldl (fun n c => n * 10 + (c.toNat - 48)) 0

/-- Try to match `/\x7b(\d+)\x7d|\[(\d+),(\d+|\*)\]/` at the head of the
input; return the parsed rule and the length of the whole match. -/
def markerAt : List Char → Option (PRule × Nat)
  | [] => none
  | c :: rest =>
    if c = lbr then
      let (run, r2) := spanP isDigitChar rest
      match r2 with
      | c2 :: _ =>
        if !run.isEmpty && c2 = rbr then
          some (.exact (digitsToNat run), run.length + 2)
        else none
      | [] => none
    else if c = '[' then
      let (run, r2) := spanP isDigitChar rest
      if run.isEmpty then none
      else
        match r2 with
        | ',' :: r3 =>
          match r3 with
          | '*' :: r4 =>
            (match r4 with
             | ']' :: _ => some (.range (digitsToNat run) none, run.length + 4)
             | _ => none)
          | _ =>
            let (run2, r5) := spanP isDigitChar r3
            if run2.isEmpty then none
            else
              match r5 with
              | ']' :: _ =>
                some (.range (digitsToNat run) (some (digitsToNat run2)),
                  run.length + run2.length + 3)
              | _ => none
        | _ => none
    else none

/-- The `/g` scan for plural markers: at each position try `markerAt`;
on success emit the rule and continue after the match, else advance one. -/
def pluralScanF : Nat → List Char → List PRule
  | 0, _ => []
  | _ + 1, [] => []
  | fuel + 1, c :: rest =>
    match markerAt (c :: rest) with
    | some (r, len) => r :: pluralScanF fuel ((c :: rest).drop len)
    | none => pluralScanF fuel rest

/-- All plural markers of the input, in text order. -/
def pluralScan (s : List Char) : List PRule := pluralScanF (s.length + 1) s

/-- `extractPlurals`: `null` when no marker matches, otherwise the ordered
rules plus the raw text. -/
def extractPluralsL (t : List Char) : Option PluralInfo :=
  match pluralScan t with
  | [] => none
  | ms => some ⟨ms, t⟩

/-- String-level wrapper for `extractPlurals` (string input case). -/
def extractPlurals (t : String) : Option PluralInfo := extractPluralsL t.data

/-- Does any suffix of the input start with a plural marker?  This is the
spec-side characterisation "the string contains a `(N)` or `[N,M|*]`
marker", defined independently of the `/g` scanning loop. -/
def hasMarkerAux : List Char → Bool
  | [] => false
  | c :: rest => (markerAt (c :: rest)).isSome || hasMarkerAux rest

/-- The input contains at least one plural marker. -/
def hasMarker (t : List Char) : Bool := hasMarkerAux t

/-! ## Comment stripper (`stripComments`, scanner.js) -/

/-- First pass, `/\/\*[\s\S]*?\*\//g` replaced by same-shape whitespace:
a character machine whose flag records "inside a block comment".  A `/*`
opens a comment only when a closing `*/` exists later (the lazy regex needs
one); inside a comment every character except newline becomes a space, and
the first `*/` closes it. -/
def stripBlock : Bool → List Char → List Char
  | false, '/' :: '*' :: rest =>
    if hasSubL "*/".data rest then ' ' :: ' ' :: stripBlock true rest
    else '/' :: '*' :: rest
  | false, c :: rest => c :: stripBlock false rest
  | true, '*' :: '/' :: rest => ' ' :: ' ' :: stripBlock false rest
  | true, c :: rest => (if c = '\n' then '\n' else ' ') :: stripBlock true rest
  | _, [] => []

/-- Second pass, `/\/\/.*$/gm`: from the first `//` of a line to the end of
that line, every character becomes a space. -/
def stripSlash : Bool → List Char → List Char
  | false, '/' :: '/' :: rest => ' ' :: ' ' :: stripSlash true rest
  | false, c :: rest => c :: stripSlash false rest
  | true, '\n' :: rest => '\n' :: stripSlash false rest
  | true, _ :: rest => ' ' :: stripSlash true rest
  | _, [] => []

/-- PHP-only third pass, `/#.*$/gm`: from the first `#` of a line to the end
of that line, every character becomes a space. -/
def stripHash : Bool → List Char → List Char
  | false, '#' :: rest => ' ' :: stripHash true rest
  | false, c :: rest => c :: stripHash false rest
  | true, '\n' :: rest => '\n' :: stripHash false rest
  | true, _ :: rest => ' ' :: stripHash true rest
  | _, [] => []

/-- Is the (lowercased) extension the PHP family? (`.blade.php` ends in
`.php` and is included.) -/
def isPhpPath (filePath : List Char) : Bool :=
  endsWithL ".php".data (filePath.map lowerChar)

/-- Is the (lowercased) extension one of the JS-family dialects? -/
def isJsPath (filePath : List Char) : Bool :=
  endsWithL ".js".data (filePath.map lowerChar) ||
  endsWithL ".jsx".data (filePath.map lowerChar) ||
  endsWithL ".ts".data (filePath.map lowerChar) ||
  endsWithL ".tsx".data (filePath.map lowerChar) ||
  endsWithL ".vue".data (filePath.map lowerChar)

/-- `stripComments(content, filePath)`: dialect selection by lowercased file
extension; unknown extensions return the content unchanged.  PHP files get
block, `//` and `#` stripping; JS-family files get block and `//` stripping. -/
def stripCommentsL (content : List Char) (filePath : List Char) : List Char :=
  if !isPhpPath filePath && !isJsPath filePath then content
  else if isPhpPath filePath then
    stripHash false (stripSlash false (stripBlock false content))
  else stripSlash false (stripBlock false content)

/-- String-level wrapper for `stripComments`. -/
def stripComments (content filePath : String) : List Char :=
  stripCommentsL content.data filePath.data

/-- The newline mask of a string: `true` exactly at newline positions.
Two strings with the same mask have the same length, the same newline
positions, and hence the same line structure. -/
def nlMask (s : List Char) : List Bool := s.map (fun c => c = '\n')

/-! ## Key extractor (`extractKeys`, scanner.js) -/

/-- One `{file, line, snippet}` record. -/
structure KLoc where
  file : List Char
  line : Nat
  snippet : List Char
deriving DecidableEq, Repr

/-- The extractor's result/working state: the `processedMatches` id set, the
`keys` set (insertion ordered), the `locations` map (insertion ordered) and
the `dynamicKeys` list. -/
structure ScanState where
  processed : List (List Char)
  keys : List (List Char)
  locations : List (List Char × List KLoc)
  dynamicKeys : List KLoc
deriving DecidableEq, Repr

/-- The initial, empty result. -/
def emptyScan : ScanState := ⟨[], [], [], []⟩

/-- Shape shared by the nine static extraction regexes: one of several
literal opener alternatives (ending in `(`), optional `\b` before it,
`\s*`, a quote, a lazy nonempty run of non-quote characters (the capture),
a quote, and optionally `\s*` plus a terminator character from `terms`
(and for the JSX pattern a closing brace right after). -/
structure CallPat where
  pfxs : List (List Char)
  wordB : Bool
  terms : List Char
  needTerm : Bool
  jsxEnd : Bool
deriving DecidableEq, Repr

/-- `/__\(\s*['"`]([^'"`]+?)['"`]\s*[,)]/g` (the quote class is
single/double/backtick here and below). -/
def pat1 : CallPat := ⟨["__(".data], false, [',', ')'], true, false⟩

/-- `@lang(...)` pattern. -/
def pat2 : CallPat := ⟨["@lang(".data], false, [',', ')'], true, false⟩

/-- `@choice(...)` pattern — terminator is a comma only. -/
def pat3 : CallPat := ⟨["@choice(".data], false, [','], true, false⟩

/-- `trans_choice(...)` pattern. -/
def pat4 : CallPat := ⟨["trans_choice(".data], false, [',', ')'], true, false⟩

/-- `\btrans(...)` pattern (word boundary before `trans`). -/
def pat5 : CallPat := ⟨["trans(".data], true, [',', ')'], true, false⟩

/-- `Lang::get(...)` pattern. -/
def pat6 : CallPat := ⟨["Lang::get(".data], false, [',', ')'], true, false⟩

/-- `\bt(...)` pattern (word boundary before `t`). -/
def pat7 : CallPat := ⟨["t(".data], true, [',', ')'], true, false⟩

/-- `usePage().props.__(...)` / `page.props.__(...)` pattern — no
terminator is required after the closing quote. -/
def pat8 : CallPat :=
  ⟨["usePage().props.__(".data, "page.props.__(".data], false, [], false, false⟩

/-- JSX pattern: a brace, `__(` or `t(`, the quoted capture, a terminator
and a closing brace. -/
def pat9 : CallPat :=
  ⟨[lbr :: "__(".data, lbr :: "t(".data], false, [',', ')'], true, true⟩

/-- The nine extraction patterns, in source order. -/
def callPats : List CallPat := [pat1, pat2, pat3, pat4, pat5, pat6, pat7, pat8, pat9]

/-- Try one opener alternative at the head of `s`; on success return the
capture and the total length of the regex match. -/
def matchOnePfx (p : CallPat) (pf : List Char) (s : List Char) :
    Option (List Char × Nat) :=
  if startsWithL pf s then
    let after := s.drop pf.length
    let (w1, r1) := skipWs after
    match r1 with
    | c :: r2 =>
      if isQuoteChar c then
        let (cap, r3) := spanP (fun c2 => !isQuoteChar c2) r2
        if cap.isEmpty then none
        else
          match r3 with
          | _ :: r4 =>
            if p.needTerm then
              let (w2, r5) := skipWs r4
              match r5 with
              | t :: r6 =>
                if t ∈ p.terms then
                  if p.jsxEnd then
                    match r6 with
                    | e :: _ =>
                      if e = rbr then
                        some (cap, pf.length + w1 + 1 + cap.length + 1 + w2 + 2)
                      else none
                    | [] => none
                  else some (cap, pf.length + w1 + 1 + cap.length + 1 + w2 + 1)
                else none
              | [] => none
            else some (cap, pf.length + w1 + 1 + cap.length + 1)
          | [] => none
      else none
    | [] => none
  else none

/-- First alternative that yields a value. -/
def firstSome {α β : Type} : List α → (α → Option β) → Option β
  | [], _ => none
  | a :: rest, f =>
    match f a with
    | some b => some b
    | none => firstSome rest f

/-- Try the pattern at the head of `s` (`prev` is the character before `s`,
for the `\b` assertion). -/
def matchPatAt (p : CallPat) (prev : Option Char) (s : List Char) :
    Option (List Char × Nat) :=
  if p.wordB && (match prev with
                 | some pc => isWordChar pc
                 | none => false) then none
  else firstSome p.pfxs (fun pf => matchOnePfx p pf s)

/-- The `exec` loop of a `/g` regex: find the leftmost match at or after the
current position, emit `(capture, matchIndex)`, and resume after the match. -/
def patScanF (p : CallPat) : Nat → Option Char → Nat → List Char → List (List Char × Nat)
  | 0, _, _, _ => []
  | _ + 1, _, _, [] => []
  | fuel + 1, prev, idx, c :: rest =>
    match matchPatAt p prev (c :: rest) with
    | some (cap, len) =>
      (cap, idx) ::
        patScanF p fuel ((c :: rest).drop (len - 1)).head? (idx + len)
          ((c :: rest).drop len)
    | none => patScanF p fuel (some c) (idx + 1) rest

/-- All matches of the pattern over the buffer. -/
def patScan (p : CallPat) (buf : List Char) : List (List Char × Nat) :=
  patScanF p (buf.length + 1) none 0 buf

/-- Shape of the three dynamic-key regexes: opener, `\s*`, a quote, then a
`$` (or `${`) inside the following non-quote run. -/
structure DynPat where
  pfx : List Char
  wordB : Bool
  needBrace : Bool
deriving DecidableEq, Repr

/-- `/__\(\s*['"`][^'"`]*\$\x7b/`. -/
def dyn1 : DynPat := ⟨"__(".data, false, true⟩

/-- `/__\(\s*['"`][^'"`]*\$/`. -/
def dyn2 : DynPat := ⟨"__(".data, false, false⟩

/-- `/\bt\(\s*['"`][^'"`]*\$\x7b/`. -/
def dyn3 : DynPat := ⟨"t(".data, true, true⟩

/-- The three dynamic-key patterns, in source order. -/
def dynPats : List DynPat := [dyn1, dyn2, dyn3]

/-- Does the dynamic pattern match at the head of `s`? -/
def dynMatchAt (d : DynPat) (prev : Option Char) (s : List Char) : Bool :=
  if d.wordB && (match prev with
                 | some pc => isWordChar pc
                 | none => false) then false
  else if startsWithL d.pfx s then
    let after := s.drop d.pfx.length
    let (_, r1) := skipWs after
    match r1 with
    | c :: r2 =>
      if isQuoteChar c then
        let (run, _) := spanP (fun c2 => !isQuoteChar c2) r2
        if d.needBrace then hasSubL ['$', lbr] run else hasSubL ['$'] run
      else false
    | [] => false
  else false

/-- `RegExp.prototype.test`: does the pattern match anywhere? -/
def dynTestF (d : DynPat) : Nat → Option Char → List Char → Bool
  | 0, _, _ => false
  | _ + 1, _, [] => false
  | fuel + 1, prev, c :: rest =>
    dynMatchAt d prev (c :: rest) || dynTestF d fuel (some c) rest

/-- Does the dynamic pattern match anywhere in the buffer? -/
def dynTest (d : DynPat) (s : List Char) : Bool := dynTestF d (s.length + 1) none s

/-- The dot-path key grammar `^[a-z0-9_]+(\.[a-z0-9_]+)*$/i`. -/
def isDotNotationKey (k : List Char) : Bool :=
  (splitOnCh '.' k).all (fun seg => !seg.isEmpty && seg.all isWordChar)

/-- `/\$[a-zA-Z_]/`: a dollar immediately followed by a letter or underscore. -/
def hasDollarVar : List Char → Bool
  | [] => false
  | c :: rest =>
    (c = '$' && (match rest with
                 | c2 :: _ => isAsciiLetter c2 || c2 = '_'
                 | [] => false)) || hasDollarVar rest

/-- The sentence key shape: nonempty, no `$`-variable, no backtick, does not
start with an opening brace, and equal to its own trim. -/
def isJsonSentenceKey (k : List Char) : Bool :=
  !k.isEmpty && !hasDollarVar k && !k.contains qB &&
  (match k with
   | c :: _ => !(c = lbr)
   | [] => true) &&
  (jsTrim k == k)

/-- A candidate key is accepted if it matches either shape. -/
def validKey (k : List Char) : Bool := isDotNotationKey k || isJsonSentenceKey k

/-- Lookup in the insertion-ordered locations map. -/
def lookupLocs : List (List Char × List KLoc) → List Char → Option (List KLoc)
  | [], _ => none
  | (k, v) :: rest, key => if k = key then some v else lookupLocs rest key

/-- `results.locations[key] = results.locations[key] || []` followed by a
push guarded by `length < MAX_LOCATIONS_PER_KEY` (100). -/
def addLoc : List (List Char × List KLoc) → List Char → KLoc → List (List Char × List KLoc)
  | [], key, loc => [(key, [loc])]
  | (k, v) :: rest, key, loc =>
    if k = key then (k, if v.length < 100 then v ++ [loc] else v) :: rest
    else (k, v) :: addLoc rest key loc

/-- Per-match processing: compute the source line from the newlines before
the match offset, deduplicate on the `key:line` id, validate the key shape,
and record the key and (up to the cap) its location with the original-line
snippet. -/
def processMatch (file : List Char) (i : Nat) (origW : List (List Char))
    (buf : List Char) (m : List Char × Nat) (st : ScanState) : ScanState :=
  let key := jsTrim m.1
  let nl := countCh '\n' (buf.take m.2)
  let line := i + nl + 1
  let mid := key ++ ':' :: natToChars line
  if mid ∈ st.processed then st
  else
    let st2 : ScanState := { st with processed := mid :: st.processed }
    if validKey key then
      { st2 with
        keys := setAdd st2.keys key,
        locations := addLoc st2.locations key ⟨file, line, jsTrim (origW.getD nl [])⟩ }
    else st2

/-- First window line on which the dynamic pattern fires, with its index. -/
def firstDynLine (d : DynPat) : List (List Char) → Nat → Option (Nat × List Char)
  | [], _ => none
  | ln :: rest, j =>
    if dynTest d ln then some (j, ln) else firstDynLine d rest (j + 1)

/-- Record one dynamic-key entry, deduplicated on `dynamic:file:line`. -/
def addDyn (file : List Char) (line : Nat) (snippet : List Char)
    (st : ScanState) : ScanState :=
  let mid := "dynamic:".data ++ file ++ ':' :: natToChars line
  if mid ∈ st.processed then st
  else
    { st with
      processed := mid :: st.processed,
      dynamicKeys := st.dynamicKeys ++ [⟨file, line, jsTrim snippet⟩] }

/-- One iteration of the sliding window: run the nine static patterns over
the joined window buffer, then the three dynamic patterns. -/
def stepWindow (file : List Char) (i : Nat) (origW cleanW : List (List Char))
    (st : ScanState) : ScanState :=
  let buf := joinNL cleanW
  let st1 := callPats.foldl
    (fun s p => (patScan p buf).foldl (fun s2 m => processMatch file i origW buf m s2) s)
    st
  dynPats.foldl
    (fun s d =>
      if dynTest d buf then
        match firstDynLine d cleanW 0 with
        | some (j, ln) => addDyn file (i + j + 1) ln s
        | none => s
      else s)
    st1

/-- The `for (let i = 0; i < lines.length; i++)` loop: the window is the
next (up to) three cleaned lines; snippets come from the original lines. -/
def scanLoop (file : List Char) :
    List (List Char) → List (List Char) → Nat → ScanState → ScanState
  | [], _, _, st => st
  | o :: orest, [], i, st =>
    scanLoop file orest [] (i + 1) (stepWindow file i ((o :: orest).take 3) [] st)
  | o :: orest, cl :: crest, i, st =>
    scanLoop file orest crest (i + 1)
      (stepWindow file i ((o :: orest).take 3) ((cl :: crest).take 3) st)

/-- `extractKeys(content, filePath)` for string input. -/
def extractKeysL (content : List Char) (filePath : List Char) : ScanState :=
  scanLoop filePath (splitLinesL content) (splitLinesL (stripCommentsL content filePath))
    0 emptyScan

/-- String-level wrapper for `extractKeys`. -/
def extractKeys (content filePath : String) : ScanState :=
  extractKeysL content.data filePath.data

/-! ## JavaScript values, flattening and the catalog loader (loaders.js) -/

/-- A decoded JSON/JS value (the output of `JSON.parse`). -/
inductive JsVal where
  | vStr (s : String)
  | vNum (n : Int)
  | vBool (b : Bool)
  | vNull
  | vArr (elems : List JsVal)
  | vObj (fields : List (String × JsVal))

/-- Is the value a string? -/
def JsVal.isStr : JsVal → Bool
  | .vStr _ => true
  | _ => false

/-- `extractKeys` applied to an arbitrary decoded value, as the JavaScript
engine executes it: a string input runs the extraction; any non-string input
reaches `content.split('\n')` (or `content.replace` inside `stripComments`)
and throws a `TypeError`, modelled as `Except.error`. -/
def extractKeysVal (v : JsVal) (filePath : String) : Except Unit ScanState :=
  match v with
  | .vStr s => .ok (extractKeys s filePath)
  | _ => .error ()

/-- `result[fullKey] = value` on a JavaScript object: overwrite in place if
the key exists (keeping its position), else append. -/
def upsertKV (acc : List (String × JsVal)) (k : String) (v : JsVal) :
    List (String × JsVal) :=
  match acc with
  | [] => [(k, v)]
  | (k2, v2) :: rest =>
    if k2 = k then (k2, v) :: rest else (k2, v2) :: upsertKV rest k v

/-- `prefix ? prefix + '.' + key : key`. -/
def joinKey (pfx k : String) : String := if pfx = "" then k else pfx ++ "." ++ k

/-- The entry loop of `flatten(obj, prefix, result)`: a plain-object value
(not an array, not null) is recursed into with the extended dotted prefix;
every other value is assigned into the accumulator as a leaf. -/
def flattenGo (pfx : String) :
    List (String × JsVal) → List (String × JsVal) → List (String × JsVal)
  | [], acc => acc
  | (k, .vObj f2) :: rest, acc =>
    flattenGo pfx rest (flattenGo (joinKey pfx k) f2 acc)
  | (k, v) :: rest, acc =>
    flattenGo pfx rest (upsertKV acc (joinKey pfx k) v)

/-- `Object.entries` of a decoded value: object fields, array elements
keyed by decimal index, string characters keyed by decimal index; numbers
and booleans have no entries.  (`Object.entries(null)` would throw in the
engine; the loaders never produce entries from it, modelled as `[]`.) -/
def entriesOf : JsVal → List (String × JsVal)
  | .vObj fields => fields
  | .vArr elems => elems.enum.map (fun ic => (String.mk (natToChars ic.1), ic.2))
  | .vStr s =>
    s.data.enum.map (fun ic => (String.mk (natToChars ic.1), JsVal.vStr (String.mk [ic.2])))
  | _ => []

/-- `flatten(data, prefix)`: iterate the entries of the top-level value. -/
def flattenWith (pfx : String) (v : JsVal) : List (String × JsVal) :=
  flattenGo pfx (entriesOf v) []

/-- `flatten(data)` with no prefix. -/
def flattenTop (v : JsVal) : List (String × JsVal) := flattenWith "" v

/-- `extractParams` as called by the loader: non-string values yield `[]`. -/
def extractParamsV : JsVal → List (List Char)
  | .vStr s => extractParamsL s.data
  | _ => []

/-- `extractPlurals` as called by the loader: non-string values yield `null`. -/
def extractPluralsV : JsVal → Option PluralInfo
  | .vStr s => extractPluralsL s.data
  | _ => none

/-- One catalog entry: `{value, count, files, params, plurals}`. -/
structure TEntry where
  value : JsVal
  count : Nat
  files : List String
  params : List (List Char)
  plurals : Option PluralInfo

/-- Lookup in the insertion-ordered locale map. -/
def lookupT : List (String × TEntry) → String → Option TEntry
  | [], _ => none
  | (k, v) :: rest, key => if k = key then some v else lookupT rest key

/-- Update the (unique) entry with the given key in place. -/
def updateT : List (String × TEntry) → String → (TEntry → TEntry) → List (String × TEntry)
  | [], _, _ => []
  | (k, v) :: rest, key, f =>
    if k = key then (k, f v) :: rest else (k, v) :: updateT rest key f

/-- The shared merge body of the three loader loops: first definition of a
key creates the entry (value, count 1, one defining file, derived params and
plurals); later definitions only bump the count and append the file. -/
def mergeStep (m : List (String × TEntry)) (d : String × String × JsVal) :
    List (String × TEntry) :=
  match lookupT m d.2.1 with
  | none =>
    m ++ [(d.2.1, ⟨d.2.2, 1, [d.1], extractParamsV d.2.2, extractPluralsV d.2.2⟩)]
  | some _ =>
    updateT m d.2.1 (fun e => { e with count := e.count + 1, files := e.files ++ [d.1] })

/-- Does the directory entry name end in `.php`? -/
def phpEntryName (entry : String) : Bool := endsWithL ".php".data entry.data

/-- `entry.replace(/\.php$/, '')`. -/
def dropPhpExt (entry : String) : String :=
  if endsWithL ".php".data entry.data then
    String.mk (entry.data.take (entry.data.length - 4))
  else entry

/-- The ordered `(definingFile, dottedKey, value)` definitions produced by
the three catalog sources of `loadLocale`: the single `<locale>.php` file
(flattened, no prefix), the `<locale>/` directory files (each flattened with
its namespace as prefix; non-`.php` entries are skipped), and the
`<locale>.json` file (entries used as-is, not flattened). -/
def localeDefs (locale : String) (singlePhp : Option JsVal)
    (dirFiles : List (String × JsVal)) (jsonFile : Option JsVal) :
    List (String × String × JsVal) :=
  (match singlePhp with
   | some v => (flattenTop v).map (fun kv => (locale ++ ".php", kv.1, kv.2))
   | none => []) ++
  (dirFiles.flatMap fun fv =>
    if phpEntryName fv.1 then
      (flattenWith (dropPhpExt fv.1) fv.2).map (fun kv => (fv.1, kv.1, kv.2))
    else []) ++
  (match jsonFile with
   | some v => (entriesOf v).map (fun kv => (locale ++ ".json", kv.1, kv.2))
   | none => [])

/-- `loadLocale`: the three source loops run in order and share one merge
body, so the map is the fold of the merge step over the concatenated
definition sequence.  Decoding failures surface as `none` / empty values
(the decoders are external collaborators returning `{}` on failure). -/
def loadLocale (locale : String) (singlePhp : Option JsVal)
    (dirFiles : List (String × JsVal)) (jsonFile : Option JsVal) :
    List (String × TEntry) :=
  (localeDefs locale singlePhp dirFiles jsonFile).foldl mergeStep []

/-- The definitions of one particular key, in production order. -/
def defsForKey (locale : String) (singlePhp : Option JsVal)
    (dirFiles : List (String × JsVal)) (jsonFile : Option JsVal) (key : String) :
    List (String × String × JsVal) :=
  (localeDefs locale singlePhp dirFiles jsonFile).filter (fun d => d.2.1 == key)

/-- Merging `fs` further definitions into an existing entry: the count grows
by their number and their defining files are appended in order. -/
def bumpN (e : TEntry) (fs : List (String × String × JsVal)) : TEntry :=
  { e with count := e.count + fs.length, files := e.files ++ fs.map (fun d => d.1) }

/-- The entry created by the first definition of a key. -/
def newEntry (d : String × String × JsVal) : TEntry :=
  ⟨d.2.2, 1, [d.1], extractParamsV d.2.2, extractPluralsV d.2.2⟩

/-! ## Nested key-path reconstructor (`extractPhpArrayKeys` /
`findIntraFileDuplicates`, validators.js) -/

/-- The `[a-zA-Z0-9_.-]` name class of the key-definition pattern. -/
def isNameChar (c : Char) : Bool := isWordChar c || c = '.' || c = '-'

/-- The key-definition pattern `/^\s*(['"`]?)([a-zA-Z0-9_.-]+)\1\s*=>/`:
leading whitespace, an optional quote, a nonempty name run, the same quote
again (backreference), whitespace, and a literal `=>`. -/
def phpKeyLine (line : List Char) : Option (List Char) :=
  let s := line.dropWhile isWsChar
  match s with
  | [] => none
  | c :: rest =>
    if isQuoteChar c then
      let (run, r2) := spanP isNameChar rest
      if run.isEmpty then none
      else
        match r2 with
        | c2 :: r3 =>
          if c2 = c then
            if startsWithL "=>".data (r3.dropWhile isWsChar) then some run else none
          else none
        | [] => none
    else
      let (run, r2) := spanP isNameChar s
      if run.isEmpty then none
      else if startsWithL "=>".data (r2.dropWhile isWsChar) then some run
      else none

/-- Count of matches of `/array\s*\(/g`. -/
def countArrayOpenF : Nat → List Char → Nat
  | 0, _ => 0
  | _ + 1, [] => 0
  | fuel + 1, c :: rest =>
    if startsWithL "array".data (c :: rest) then
      match ((c :: rest).drop 5).dropWhile isWsChar with
      | c2 :: r2 =>
        if c2 = '(' then 1 + countArrayOpenF fuel r2
        else countArrayOpenF fuel rest
      | [] => countArrayOpenF fuel rest
    else countArrayOpenF fuel rest

/-- Count of matches of `/array\s*\(/g` over a line. -/
def countArrayOpen (s : List Char) : Nat := countArrayOpenF (s.length + 1) s

/-- Count of matches of `/\)\s*[,;]/g`. -/
def countCloseSepF : Nat → List Char → Nat
  | 0, _ => 0
  | _ + 1, [] => 0
  | fuel + 1, c :: rest =>
    if c = ')' then
      match rest.dropWhile isWsChar with
      | c2 :: r2 =>
        if c2 = ',' || c2 = ';' then 1 + countCloseSepF fuel r2
        else countCloseSepF fuel rest
      | [] => countCloseSepF fuel rest
    else countCloseSepF fuel rest

/-- Count of matches of `/\)\s*[,;]/g` over a line. -/
def countCloseSep (s : List Char) : Nat := countCloseSepF (s.length + 1) s

/-- Does `/\)\s*$/` match (at most once per line)? -/
def endsCloseWs (s : List Char) : Bool :=
  match s.reverse.dropWhile isWsChar with
  | c :: _ => c = ')'
  | [] => false

/-- `openBrackets + openArrays` of a line. -/
def lineOpens (line : List Char) : Nat := countCh '[' line + countArrayOpen line

/-- `closeBrackets + closeArrays` of a line. -/
def lineCloses (line : List Char) : Nat :=
  countCh ']' line + countCloseSep line + (if endsCloseWs line then 1 else 0)

/-- Pop `n` frames off the end of the path stack (stopping at empty). -/
def popN (st : List (List Char × Nat)) (n : Nat) : List (List Char × Nat) :=
  st.take (st.length - n)

/-- One reconstructed key occurrence: `{key, line, indent, path, raw}`. -/
structure PhpKey where
  key : List Char
  line : Nat
  indent : Nat
  path : List Char
  raw : List Char
deriving DecidableEq, Repr

/-- The per-line loop of `extractPhpArrayKeys`: on a key line record the key
with its full dotted path (joined stack keys plus this key) and update the
stack by the net bracket delta (push on net-open, pop on net-close, nothing
on zero); on a non-key line pop the net number of closures. -/
def phpKeysGo : List (List Char) → Nat → List (List Char × Nat) → List PhpKey → List PhpKey
  | [], _, _, acc => acc
  | line :: rest, lineNum, stack, acc =>
    let indent := (line.takeWhile isWsChar).length
    match phpKeyLine line with
    | some key =>
      let path :=
        if stack.isEmpty then key
        else joinWithCh '.' (stack.map (fun f => f.1)) ++ '.' :: key
      let opens := lineOpens line
      let closes := lineCloses line
      let stack2 :=
        if closes < opens then stack ++ [(key, indent)]
        else if opens < closes then popN stack (closes - opens)
        else stack
      phpKeysGo rest (lineNum + 1) stack2
        (acc ++ [⟨key, lineNum + 1, indent, path, jsTrim line⟩])
    | none =>
      let stack2 := popN stack (lineCloses line - lineOpens line)
      phpKeysGo rest (lineNum + 1) stack2 acc

/-- `extractPhpArrayKeys(content)`. -/
def extractPhpArrayKeysL (content : List Char) : List PhpKey :=
  phpKeysGo (splitLinesL content) 0 [] []

/-- One reported intra-file duplicate. -/
structure DupRec where
  key : List Char
  fullPath : List Char
  count : Nat
  lines : List Nat
deriving DecidableEq, Repr

/-- Append one occurrence to its path group (insertion-ordered `Map`). -/
def groupAdd (acc : List (List Char × List (List Char × Nat))) (path : List Char)
    (occ : List Char × Nat) : List (List Char × List (List Char × Nat)) :=
  match acc with
  | [] => [(path, [occ])]
  | (p, xs) :: rest =>
    if p = path then (p, xs ++ [occ]) :: rest else (p, xs) :: groupAdd rest path occ

/-- Group all occurrences by reconstructed full path, in insertion order. -/
def groupPaths (ks : List PhpKey) : List (List Char × List (List Char × Nat)) :=
  ks.foldl (fun acc k => groupAdd acc k.path (k.key, k.line)) []

/-- Numeric ascending insertion for line numbers. -/
def insNat (x : Nat) : List Nat → List Nat
  | [] => [x]
  | y :: rest => if x ≤ y then x :: y :: rest else y :: insNat x rest

/-- `lines.sort((a, b) => a - b)`. -/
def sortNat : List Nat → List Nat
  | [] => []
  | x :: rest => insNat x (sortNat rest)

/-- `fullPath.split('.').pop()`. -/
def lastSeg (path : List Char) : List Char :=
  ((splitOnCh '.' path).getLast?).getD []

/-- `findIntraFileDuplicates(keys)`: every path with more than one
occurrence, reported with its last segment as key, the occurrence count and
the ascending line numbers. -/
def findIntraFileDuplicatesL (ks : List PhpKey) : List DupRec :=
  (groupPaths ks).filterMap (fun g =>
    if g.2.length > 1 then
      some ⟨lastSeg g.1, g.1, g.2.length, sortNat (g.2.map (fun o => o.2))⟩
    else none)

/-- The six-line array-literal text of the duplicate-reconstruction example. -/
def c6Content : List Char :=
  "'a' => [\n'b' => 'x',\n],\n'a' => [\n'b' => 'y',\n],".data

/-! ## Tree-wide merge of per-file extraction results (`main`, index.js) -/

/-- Merging one file's `locations` entry into the tree-wide index:
`usedKeysData.locations[key].push(...locs)` — the per-file lists are
concatenated with no further cap. -/
def mergeLocsOne :
    List (List Char × List KLoc) → List Char × List KLoc → List (List Char × List KLoc)
  | [], kv => [(kv.1, kv.2)]
  | (k, v) :: rest, kv =>
    if k = kv.1 then (k, v ++ kv.2) :: rest else (k, v) :: mergeLocsOne rest kv

/-- The scan loop of `main`: fold every scanned file's locations into the
tree-wide `usedKeysData.locations` map. -/
def mergeTreeLocations (results : List ScanState) : List (List Char × List KLoc) :=
  results.foldl (fun acc r => r.locations.foldl mergeLocsOne acc) []

/-- A 26-line file whose every line is `__('k')`. -/
def c3Content : List Char := joinNL (List.replicate 26 "__('k')".data)

/-- One line of the past-cap example file: a single-line translate call. -/
def c3Line : List Char := "__('k')".data

/-- A 101-line file whose every line matches the key `k`: 101 distinct
`(key, line)` matches, one more than the 100-location cap. -/
def c3BigContent : List Char := joinNL (List.replicate 101 c3Line)

/-- `count` iterations of the scan loop's window step with the full
three-line window `[c3Line, c3Line, c3Line]` starting at line index `i` —
the shape every window of the 101-line file has while at least three lines
remain. -/
def iterFullW (file : List Char) : Nat → Nat → ScanState → ScanState
  | 0, _, st => st
  | k + 1, i, st =>
    iterFullW file k (i + 1)
      (stepWindow file i [c3Line, c3Line, c3Line] [c3Line, c3Line, c3Line] st)

/-- The extractor state after the first `k` full-window iterations over the
101-line file: processed `key:line` ids for source lines 1..min(k+2,101)
(newest first), the single key `k`, location records for lines
1..min(k+2,100) — capped at 100 — and no dynamic keys. -/
def c3At (k : Nat) : ScanState :=
  ⟨(List.range (min (k + 2) 101)).reverse.map (fun j => "k".data ++ ':' :: natToChars (j + 1)),
   ["k".data],
   [("k".data, (List.range (min (k + 2) 100)).map (fun j => ⟨"f1.js".data, j + 1, c3Line⟩))],
   []⟩

/-- The per-key location lists of a map are all within the cap. -/
def LocsBounded (locs : List (List Char × List KLoc)) : Prop :=
  ∀ kv ∈ locs, kv.2.length ≤ 100

/-! ## Sliding-window dedup property (C4) -/

/-- First line of the three-line call: `__(`. -/
def c4l1 : List Char := "__(".data

/-- Second line of the three-line call: the quoted key plus a comma. -/
def c4l2 : List Char := "'a.b',".data

/-- Third line of the three-line call: the closing parenthesis. -/
def c4l3 : List Char := ")".data

/-- The scanned file's (relative) path; the extension is not a known
dialect, so comment stripping leaves the content unchanged. -/
def c4File : List Char := "app.txt".data

/-- The expected extractor state after the call has been processed: one
processed id, the single key `a.b`, exactly one location on the call's first
line, and no dynamic keys. -/
def c4State (line : Nat) : ScanState :=
  ⟨["a.b".data ++ ':' :: natToChars line], ["a.b".data],
   [("a.b".data, [⟨c4File, line, "__(".data⟩])], []⟩

def noMatchW (w : List (List Char)) : Bool :=
  callPats.all (fun p => (patScan p (joinNL w)).isEmpty) &&
  dynPats.all (fun d => !dynTest d (joinNL w))

def c4Lines (n m : Nat) : List (List Char) :=
  List.replicate n [] ++ c4l1 :: c4l2 :: c4l3 :: List.replicate m []

def c4content (n m : Nat) : List Char := joinNL (c4Lines n m)

/-! ## Theorems -/

/-- C1 counterexample: with rules `["build/", "!build/keep.txt"]`, the plain
file path `build/other.txt` (isDirectory = false) is NOT ignored, contrary to
the claim: the rule `build/` is directory-only and is skipped for files, and
the negated rule does not match, so no rule matches at all. -/
theorem c1_counterexample :
    ¬ isGitignored c1Rules "build/other.txt" false = true := by
  decide

/-- C1 (amended): with rules `["build/", "!build/keep.txt"]`, the plain file
`build/keep.txt` is not ignored and the plain file `build/other.txt` is also
not ignored (a directory-only rule never matches a plain file); the directory
`build` itself is ignored, and the later negated rule overrides the earlier
one when `build/keep.txt` is evaluated as a directory (last matching rule
wins). -/
theorem c1_amended :
    isGitignored c1Rules "build/keep.txt" false = false ∧
    isGitignored c1Rules "build/other.txt" false = false ∧
    isGitignored c1Rules "build" true = true ∧
    isGitignored c1Rules "build/keep.txt" true = false := by
  refine ⟨by decide, by decide, by decide, by decide⟩

/-- C10: the ignore predicate answers "not ignored" for every path that is
not strictly inside the base directory — i.e. whose path relative to the
base directory is empty or begins with `..` — regardless of the rule list
and of the isDirectory flag. -/
theorem c10_outside_base_never_ignored :
    ∀ (rules : List GRule) (rel : String) (isDirectory : Bool),
      rel = "" ∨ startsWithL "..".data rel.data = true →
      isGitignored rules rel isDirectory = false := by
  intro rules rel isDirectory h
  rcases h with h | h
  · subst h
    rfl
  · simp [isGitignored, isGitignoredL, h]

/-- C10 witness: the relative path `../conf` starts with `..` and is reported
as not ignored even under a rule list that would otherwise match everything. -/
theorem c10_witness :
    ("../conf" = "" ∨ startsWithL "..".data "../conf".data = true) ∧
    isGitignored (parseGitignoreL "**".data) "../conf" false = false := by
  have h : "../conf" = "" ∨ startsWithL "..".data "../conf".data = true :=
    Or.inr (by decide)
  exact ⟨h, c10_outside_base_never_ignored (parseGitignoreL "**".data) "../conf" false h⟩

theorem leKey_total : ∀ a b, leKey a b = true ∨ leKey b a = true := by
  intro a
  induction a with
  | nil => intro b; exact Or.inl rfl
  | cons c as ih =>
    intro b
    cases b with
    | nil => exact Or.inr rfl
    | cons d bs =>
      by_cases h1 : c.toNat < d.toNat
      · left; simp [leKey, h1]
      · by_cases h2 : d.toNat < c.toNat
        · right; simp [leKey, h2]
        · rcases ih bs with h | h
          · left; simp [leKey, h1, h2, h]
          · right; simp [leKey, h1, h2, h]

theorem leKey_trans :
    ∀ a b c, leKey a b = true → leKey b c = true → leKey a c = true := by
  intro a
  induction a with
  | nil => intro b c _ _; rfl
  | cons x as ih =>
    intro b c hab hbc
    cases b with
    | nil => simp [leKey] at hab
    | cons y bs =>
      cases c with
      | nil => simp [leKey] at hbc
      | cons z cs =>
        by_cases h1 : x.toNat < y.toNat <;> by_cases h2 : y.toNat < z.toNat
        · simp [leKey, Nat.lt_trans h1 h2]
        · simp only [leKey, h2, if_false, if_neg] at hbc
          by_cases h3 : z.toNat < y.toNat
          · simp [h3] at hbc
          · have hyz : y.toNat = z.toNat := by omega
            simp [leKey, hyz ▸ h1]
        · simp only [leKey, h1, if_false, if_neg] at hab
          by_cases h3 : y.toNat < x.toNat
          · simp [h3] at hab
          · have hxy : x.toNat = y.toNat := by omega
            simp [leKey, hxy ▸ h2]
        · simp only [leKey, h1, if_false, if_neg] at hab
          simp only [leKey, h2, if_false, if_neg] at hbc
          by_cases h3 : y.toNat < x.toNat
          · simp [h3] at hab
          · by_cases h4 : z.toNat < y.toNat
            · simp [h4] at hbc
            · simp only [h3, if_false] at hab
              simp only [h4, if_false] at hbc
              have hxy : x.toNat = y.toNat := by omega
              have hyz : y.toNat = z.toNat := by omega
              have hne1 : ¬ x.toNat < z.toNat ∨ True := Or.inr trivial
              simp only [leKey]
              have hxz : ¬ x.toNat < z.toNat := by omega
              have hzx : ¬ z.toNat < x.toNat := by omega
              simp [hxz, hzx]
              exact ih bs cs hab hbc

theorem mem_insSorted (l : List (List Char)) (z x : List Char) :
    z ∈ insSorted x l ↔ z = x ∨ z ∈ l := by
  induction l with
  | nil => simp [insSorted]
  | cons y rest ih =>
    by_cases h : leKey x y
    · simp [insSorted, h]
    · simp [insSorted, h, ih]
      tauto

/-- The result of `insSorted` is sorted if the input is. -/
theorem sorted_insSorted (l : List (List Char)) (x : List Char)
    (h : l.Pairwise (fun a b => leKey a b = true)) :
    (insSorted x l).Pairwise (fun a b => leKey a b = true) := by
  induction l with
  | nil => simp [insSorted]
  | cons y rest ih =>
    rcases List.pairwise_cons.mp h with ⟨hy, hrest⟩
    by_cases hxy : leKey x y
    · simp only [insSorted, hxy, if_true]
      refine List.pairwise_cons.mpr ⟨?_, h⟩
      intro z hz
      rcases List.mem_cons.mp hz with rfl | hz2
      · exact hxy
      · exact leKey_trans x y z hxy (hy z hz2)
    · simp only [insSorted, hxy, if_false]
      refine List.pairwise_cons.mpr ⟨?_, ih hrest⟩
      intro z hz
      rcases (mem_insSorted rest z x).mp hz with hz | hz
      · rw [hz]
        rcases leKey_total x y with h1 | h1
        · exact absurd h1 hxy
        · exact h1
      · exact hy z hz

theorem nodup_insSorted (l : List (List Char)) (x : List Char)
    (hx : x ∉ l) (h : l.Nodup) : (insSorted x l).Nodup := by
  induction l with
  | nil => simp [insSorted]
  | cons y rest ih =>
    rcases List.nodup_cons.mp h with ⟨hy, hrest⟩
    have hxy : x ≠ y := fun e => hx (e ▸ List.mem_cons_self y rest)
    have hxr : x ∉ rest := fun e => hx (List.mem_cons_of_mem y e)
    by_cases hle : leKey x y
    · simp only [insSorted, hle, if_true]
      exact List.nodup_cons.mpr ⟨hx, h⟩
    · simp only [insSorted, hle, if_false]
      refine List.nodup_cons.mpr ⟨?_, ih hxr hrest⟩
      intro hmem
      rcases (mem_insSorted rest y x).mp hmem with e | e
      · exact hxy e.symm
      · exact hy e

theorem sorted_sortKeys (l : List (List Char)) :
    (sortKeys l).Pairwise (fun a b => leKey a b = true) := by
  induction l with
  | nil => simp [sortKeys]
  | cons x rest ih => exact sorted_insSorted _ x ih

theorem mem_sortKeys (l : List (List Char)) (z : List Char) :
    z ∈ sortKeys l ↔ z ∈ l := by
  induction l with
  | nil => simp [sortKeys]
  | cons x rest ih => simp [sortKeys, mem_insSorted, ih]

theorem nodup_sortKeys (l : List (List Char)) (h : l.Nodup) :
    (sortKeys l).Nodup := by
  induction l with
  | nil => simp [sortKeys]
  | cons x rest ih =>
    rcases List.nodup_cons.mp h with ⟨hx, hrest⟩
    exact nodup_insSorted _ x (fun e => hx ((mem_sortKeys rest x).mp e)) (ih hrest)

theorem nodup_foldl_setAdd (xs : List (List Char)) :
    ∀ acc : List (List Char), acc.Nodup → (xs.foldl setAdd acc).Nodup := by
  induction xs with
  | nil => intro acc h; exact h
  | cons x rest ih =>
    intro acc h
    simp only [List.foldl_cons]
    apply ih
    by_cases hx : x ∈ acc
    · simpa [setAdd, hx] using h
    · simp only [setAdd, hx, if_false]
      simp [List.nodup_append, h, hx]

/-- C8: for every input string, `extractParams` returns a lexicographically
sorted, duplicate-free sequence of placeholder names; and an input containing
only the pure-digit brace markers `(0)` and `(1)` (written with braces in the
actual string) yields an empty parameter set. -/
theorem c8_extractParams_sorted_nodup :
    (∀ t : String,
        (extractParams t).Pairwise (fun a b => leKey a b = true) ∧
        (extractParams t).Nodup) ∧
    extractParams "\x7b0\x7d apple|\x7b1\x7d apples" = [] := by
  constructor
  · intro t
    constructor
    · exact sorted_sortKeys _
    · exact nodup_sortKeys _ (nodup_foldl_setAdd _ [] List.nodup_nil)
  · decide

theorem pluralScanF_nil_iff :
    ∀ (fuel : Nat) (t : List Char), t.length < fuel →
      (pluralScanF fuel t = [] ↔ hasMarker t = false) := by
  intro fuel
  induction fuel with
  | zero => intro t h; omega
  | succ fuel ih =>
    intro t h
    cases t with
    | nil => simp [pluralScanF, hasMarker, hasMarkerAux]
    | cons c rest =>
      cases hm : markerAt (c :: rest) with
      | some pr =>
        simp [pluralScanF, hm, hasMarker, hasMarkerAux]
      | none =>
        have hlt : rest.length < fuel := by
          simpa using Nat.lt_of_succ_lt_succ h
        simp [pluralScanF, hm, hasMarker, hasMarkerAux]
        exact ih rest hlt

/-- C9: for every input string, `extractPlurals` returns `null` exactly when
the string contains no `(N)` exact-count marker and no `[N,M]` / `[N,*]`
range marker; and on `"(0) none|[1,1] one|[2,*] many"` (braces in the actual
string) it returns exactly three rules in text order: `Exact 0`,
`Range 1 1`, and `Range 2 unbounded`. -/
theorem c9_extractPlurals :
    (∀ t : String, extractPlurals t = none ↔ hasMarker t.data = false) ∧
    extractPlurals "\x7b0\x7d none|[1,1] one|[2,*] many" =
      some ⟨[.exact 0, .range 1 (some 1), .range 2 none],
        "\x7b0\x7d none|[1,1] one|[2,*] many".data⟩ := by
  constructor
  · intro t
    have key := pluralScanF_nil_iff (t.data.length + 1) t.data (by omega)
    unfold extractPlurals extractPluralsL
    cases h : pluralScan t.data with
    | nil =>
      unfold pluralScan at h
      simpa using key.mp h
    | cons r rs =>
      unfold pluralScan at h
      have hne : ¬ pluralScanF (t.data.length + 1) t.data = [] := by
        intro hc
        rw [h] at hc
        exact List.cons_ne_nil r rs hc
      have hmk : ¬ hasMarker t.data = false := fun hf => hne (key.mpr hf)
      simp [hmk]
  · decide

theorem stripBlock_nlMask : ∀ (mode : Bool) (s : List Char),
    nlMask (stripBlock mode s) = nlMask s := by
  intro mode s
  induction mode, s using stripBlock.induct with
  | case1 rest h ih =>
    simp only [stripBlock, h, if_true, nlMask, List.map] at ih ⊢
    simp [ih]
  | case2 rest h =>
    simp [stripBlock, h]
  | case3 c rest hne ih =>
    have he : stripBlock false (c :: rest) = c :: stripBlock false rest := by
      rw [stripBlock.eq_def]
      split <;> simp_all
    rw [he]
    simp only [nlMask, List.map] at ih ⊢
    simp [ih]
  | case4 rest ih =>
    simp only [stripBlock, nlMask, List.map] at ih ⊢
    simp [ih]
  | case5 c rest hne ih =>
    have he : stripBlock true (c :: rest) =
        (if c = '\n' then '\n' else ' ') :: stripBlock true rest := by
      rw [stripBlock.eq_def]
      split <;> simp_all
    rw [he]
    simp only [nlMask, List.map] at ih ⊢
    by_cases hc : c = '\n' <;> simp [hc, ih]
  | case6 mode => cases mode <;> rfl

theorem stripSlash_nlMask : ∀ (mode : Bool) (s : List Char),
    nlMask (stripSlash mode s) = nlMask s := by
  intro mode s
  induction mode, s using stripSlash.induct with
  | case1 rest ih =>
    simp only [stripSlash, nlMask, List.map] at ih ⊢
    simp [ih]
  | case2 c rest hne ih =>
    have he : stripSlash false (c :: rest) = c :: stripSlash false rest := by
      rw [stripSlash.eq_def]
      split <;> simp_all
    rw [he]
    simp only [nlMask, List.map] at ih ⊢
    simp [ih]
  | case3 rest ih =>
    simp only [stripSlash, nlMask, List.map] at ih ⊢
    simp [ih]
  | case4 c rest hne ih =>
    have he : stripSlash true (c :: rest) = ' ' :: stripSlash true rest := by
      rw [stripSlash.eq_def]
      split <;> simp_all
    rw [he]
    simp only [nlMask, List.map] at ih ⊢
    have hc : ¬ c = '\n' := fun e => hne e
    simp [hc, ih]
  | case5 mode => cases mode <;> rfl

theorem stripHash_nlMask : ∀ (mode : Bool) (s : List Char),
    nlMask (stripHash mode s) = nlMask s := by
  intro mode s
  induction mode, s using stripHash.induct with
  | case1 rest ih =>
    simp only [stripHash, nlMask, List.map] at ih ⊢
    simp [ih]
  | case2 c rest hne ih =>
    have he : stripHash false (c :: rest) = c :: stripHash false rest := by
      rw [stripHash.eq_def]
      split <;> simp_all
    rw [he]
    simp only [nlMask, List.map] at ih ⊢
    simp [ih]
  | case3 rest ih =>
    simp only [stripHash, nlMask, List.map] at ih ⊢
    simp [ih]
  | case4 c rest hne ih =>
    have he : stripHash true (c :: rest) = ' ' :: stripHash true rest := by
      rw [stripHash.eq_def]
      split <;> simp_all
    rw [he]
    simp only [nlMask, List.map] at ih ⊢
    have hc : ¬ c = '\n' := fun e => hne e
    simp [hc, ih]
  | case5 mode => cases mode <;> rfl

/-- All passes of the comment stripper preserve the newline mask. -/
theorem stripCommentsL_nlMask (content path : List Char) :
    nlMask (stripCommentsL content path) = nlMask content := by
  unfold stripCommentsL
  split
  · rfl
  · split
    · rw [stripHash_nlMask, stripSlash_nlMask, stripBlock_nlMask]
    · rw [stripSlash_nlMask, stripBlock_nlMask]

theorem splitLinesL_ne_nil : ∀ s : List Char, splitLinesL s ≠ [] := by
  intro s
  induction s with
  | nil => simp [splitLinesL]
  | cons c rest ih =>
    by_cases hc : c = '\n'
    · simp [splitLinesL, hc]
    · simp only [splitLinesL, hc, if_false]
      cases h : splitLinesL rest with
      | nil => simp
      | cons hd tl => simp

/-- Strings with equal newline masks split into the same number of lines. -/
theorem splitLines_length_of_nlMask :
    ∀ s1 s2 : List Char, nlMask s1 = nlMask s2 →
      (splitLinesL s1).length = (splitLinesL s2).length := by
  intro s1
  induction s1 with
  | nil =>
    intro s2 h
    have : s2 = [] := by
      cases s2 with
      | nil => rfl
      | cons d r2 => simp [nlMask] at h
    subst this
    rfl
  | cons c r ih =>
    intro s2 h
    cases s2 with
    | nil => simp [nlMask] at h
    | cons d r2 =>
      simp only [nlMask, List.map, List.cons.injEq] at h
      obtain ⟨h1, h2⟩ := h
      have hiff : (c = '\n') ↔ (d = '\n') := decide_eq_decide.mp h1
      by_cases hc : c = '\n'
      · have hd : d = '\n' := hiff.mp hc
        simp only [splitLinesL, hc, hd, if_true]
        simpa using ih r2 h2
      · have hd : ¬ d = '\n' := fun e => hc (hiff.mpr e)
        simp only [splitLinesL, hc, hd, if_false]
        obtain ⟨x1, t1, e1⟩ := List.exists_cons_of_ne_nil (splitLinesL_ne_nil r)
        obtain ⟨x2, t2, e2⟩ := List.exists_cons_of_ne_nil (splitLinesL_ne_nil r2)
        have hlen := ih r2 h2
        rw [e1, e2]
        rw [e1, e2] at hlen
        simpa using hlen

/-- C2 counterexample: `extractKeys` applied to the non-string input `null`
does not return the empty result — it throws (`content.split` on a
non-string raises a `TypeError`), contrary to the claim. -/
theorem c2_counterexample :
    extractKeysVal JsVal.vNull "app.php" ≠ Except.ok emptyScan := by
  intro h
  simp [extractKeysVal] at h

/-- C2 (amended): for every non-string input value the key extractor raises
a `TypeError` (modelled as `Except.error`) instead of returning an empty
result; extraction is exception-free only for string inputs, where it
returns the extraction result. -/
theorem c2_amended :
    (∀ (v : JsVal) (p : String), v.isStr = false → extractKeysVal v p = .error ()) ∧
    (∀ (s p : String), extractKeysVal (.vStr s) p = .ok (extractKeys s p)) := by
  constructor
  · intro v p h
    cases v <;> simp_all [JsVal.isStr, extractKeysVal]
  · intro s p
    rfl

/-- C2 witness: the amended theorem applied at the concrete non-string
input `null`. -/
theorem c2_witness :
    JsVal.vNull.isStr = false ∧ extractKeysVal JsVal.vNull "app.php" = .error () :=
  ⟨rfl, c2_amended.1 JsVal.vNull "app.php" rfl⟩

theorem bumpN_nil (e : TEntry) : bumpN e [] = e := by
  cases e
  simp [bumpN]

theorem bumpN_single_comp (e : TEntry) (d : String × String × JsVal)
    (fs : List (String × String × JsVal)) :
    bumpN (bumpN e [d]) fs = bumpN e (d :: fs) := by
  cases e
  simp [bumpN]
  omega

theorem lookupT_append_single (m : List (String × TEntry)) (k key : String) (e : TEntry) :
    lookupT (m ++ [(k, e)]) key =
      match lookupT m key with
      | some x => some x
      | none => if k = key then some e else none := by
  induction m with
  | nil => simp [lookupT]
  | cons kv rest ih =>
    obtain ⟨k2, v2⟩ := kv
    by_cases h : k2 = key
    · simp [lookupT, h]
    · simp [lookupT, h, ih]

theorem lookupT_updateT (m : List (String × TEntry)) (k key : String) (f : TEntry → TEntry) :
    lookupT (updateT m k f) key =
      if k = key then (lookupT m key).map f else lookupT m key := by
  induction m with
  | nil => by_cases h : k = key <;> simp [lookupT, updateT, h]
  | cons kv rest ih =>
    obtain ⟨k2, v2⟩ := kv
    simp only [updateT]
    by_cases h1 : k2 = k
    · subst h1
      by_cases h2 : k2 = key
      · subst h2
        simp [lookupT]
      · simp [lookupT, h2]
    · simp only [h1, if_false]
      by_cases h2 : k2 = key
      · subst h2
        have hk : ¬ k = k2 := fun e => h1 e.symm
        simp [lookupT, hk]
      · simp [lookupT, h2, ih]

/-- What one locale-map lookup sees after folding a definition sequence into
an arbitrary starting map. -/
theorem foldl_mergeStep_lookup :
    ∀ (ds : List (String × String × JsVal)) (m : List (String × TEntry)) (key : String),
      lookupT (ds.foldl mergeStep m) key =
        match lookupT m key with
        | some e => some (bumpN e (ds.filter (fun d => d.2.1 == key)))
        | none =>
          match ds.filter (fun d => d.2.1 == key) with
          | [] => none
          | d0 :: rest => some (bumpN (newEntry d0) rest) := by
  intro ds
  induction ds with
  | nil =>
    intro m key
    cases h : lookupT m key <;> simp [h, bumpN_nil]
  | cons d ds ih =>
    intro m key
    simp only [List.foldl_cons]
    rw [ih (mergeStep m d) key]
    by_cases hd : d.2.1 = key
    · subst hd
      have hb : (d.2.1 == d.2.1) = true := beq_self_eq_true d.2.1
      simp only [List.filter_cons, hb, if_true]
      cases hm : lookupT m d.2.1 with
      | none =>
        have h1 : lookupT (mergeStep m d) d.2.1 = some (newEntry d) := by
          simp only [mergeStep, hm]
          rw [lookupT_append_single]
          simp [hm, newEntry]
        rw [h1]
      | some e =>
        have h1 : lookupT (mergeStep m d) d.2.1 =
            some (bumpN e [d]) := by
          simp only [mergeStep, hm]
          rw [lookupT_updateT]
          simp [hm, bumpN]
        rw [h1]
        simp [hm, bumpN_single_comp]
    · have hbeq : (d.2.1 == key) = false := by
        simp [hd]
      simp only [List.filter_cons, hbeq, Bool.false_eq_true, if_false]
      have h1 : lookupT (mergeStep m d) key = lookupT m key := by
        cases hm : lookupT m d.2.1 with
        | none =>
          simp only [mergeStep, hm]
          rw [lookupT_append_single]
          cases hk : lookupT m key <;> simp [hd]
        | some e =>
          simp only [mergeStep, hm]
          rw [lookupT_updateT]
          simp [hd]
      rw [h1]

/-- C7: after loading any locale's catalog from any combination of the three
sources, every entry's `count` equals the length of its `files` sequence,
the `files` sequence lists the defining files of that key in production
order, and the stored `value` is the first-seen definition's value (later
duplicate definitions never overwrite it). -/
theorem c7_loadLocale_invariant :
    ∀ (locale : String) (singlePhp : Option JsVal)
      (dirFiles : List (String × JsVal)) (jsonFile : Option JsVal)
      (key : String) (e : TEntry),
      lookupT (loadLocale locale singlePhp dirFiles jsonFile) key = some e →
      e.count = e.files.length ∧
      e.files = (defsForKey locale singlePhp dirFiles jsonFile key).map (fun d => d.1) ∧
      (defsForKey locale singlePhp dirFiles jsonFile key).head?.map (fun d => d.2.2) =
        some e.value := by
  intro locale singlePhp dirFiles jsonFile key e h
  unfold loadLocale at h
  rw [foldl_mergeStep_lookup] at h
  simp only [lookupT] at h
  unfold defsForKey
  cases hf : (localeDefs locale singlePhp dirFiles jsonFile).filter (fun d => d.2.1 == key) with
  | nil =>
    rw [hf] at h
    simp at h
  | cons d0 rest =>
    rw [hf] at h
    simp only [Option.some.injEq] at h
    subst h
    refine ⟨?_, ?_, ?_⟩
    · simp only [bumpN, newEntry]
      simp
      omega
    · simp [bumpN, newEntry]
    · simp [bumpN, newEntry]

/-- C7 witness: a locale built from a single PHP file defining
`auth.failed = "x"` and a namespaced directory file `auth.php` defining
`failed = "y"` has, at key `auth.failed`, count 2 = two defining files in
order, and the first-seen value `"x"`. -/
theorem c7_witness :
    lookupT (loadLocale "en"
        (some (.vObj [("auth", .vObj [("failed", .vStr "x")])]))
        [("auth.php", .vObj [("failed", .vStr "y")])]
        none) "auth.failed" =
      some ⟨.vStr "x", 2, ["en.php", "auth.php"], [], none⟩ ∧
    (2 = (["en.php", "auth.php"] : List String).length ∧
      ["en.php", "auth.php"] =
        (defsForKey "en" (some (.vObj [("auth", .vObj [("failed", .vStr "x")])]))
          [("auth.php", .vObj [("failed", .vStr "y")])] none "auth.failed").map
          (fun d => d.1) ∧
      (defsForKey "en" (some (.vObj [("auth", .vObj [("failed", .vStr "x")])]))
        [("auth.php", .vObj [("failed", .vStr "y")])] none "auth.failed").head?.map
          (fun d => d.2.2) = some (.vStr "x")) := by
  have hl : lookupT (loadLocale "en"
      (some (.vObj [("auth", .vObj [("failed", .vStr "x")])]))
      [("auth.php", .vObj [("failed", .vStr "y")])]
      none) "auth.failed" =
      some ⟨.vStr "x", 2, ["en.php", "auth.php"], [], none⟩ := by
    simp [loadLocale, localeDefs, flattenTop, flattenWith, flattenGo, entriesOf,
      upsertKV, joinKey, mergeStep, lookupT, updateT, newEntry, phpEntryName,
      dropPhpExt, endsWithL, startsWithL, extractParamsV, extractPluralsV,
      extractParamsL, extractPluralsL, colonScan, colonScanF, braceScan,
      braceScanF, pluralScan, pluralScanF, markerAt, sortKeys, setAdd, spanP,
      lbr, isWordChar, isDigitChar]
  refine ⟨hl, ?_⟩
  have := c7_loadLocale_invariant "en"
    (some (.vObj [("auth", .vObj [("failed", .vStr "x")])]))
    [("auth.php", .vObj [("failed", .vStr "y")])] none "auth.failed"
    ⟨.vStr "x", 2, ["en.php", "auth.php"], [], none⟩ hl
  simpa using this

/-- C5: (general part) for every input file and path, the comment-stripped
text has exactly the original's newline mask — hence the same length, the
same newline positions and the same line count; (concrete part) a translate
call whose key literal lies entirely inside a block comment contributes no
key and no location, while the identical call outside the comment in the
same file does: only line 2 is recorded. -/
theorem c5_comment_stripping :
    (∀ content path : String,
        nlMask (stripComments content path) = nlMask content.data ∧
        (stripComments content path).length = content.data.length ∧
        (splitLinesL (stripComments content path)).length =
          (splitLinesL content.data).length) ∧
    ((extractKeys "/* __('a.b') */\n__('a.b')" "x.php").keys = ["a.b".data] ∧
     (extractKeys "/* __('a.b') */\n__('a.b')" "x.php").locations =
       [("a.b".data, [⟨"x.php".data, 2, "__('a.b')".data⟩])]) := by
  constructor
  · intro content path
    have hm := stripCommentsL_nlMask content.data path.data
    refine ⟨hm, ?_, splitLines_length_of_nlMask _ _ hm⟩
    have hl := congrArg List.length hm
    simpa [nlMask] using hl
  · constructor
    · decide
    · decide

/-- C6: the nested key-path reconstructor on the six-line example reports
exactly two intra-file duplicates: full path `a` with occurrence count 2 at
ascending lines 1 and 4, and full path `a.b` with occurrence count 2 at
ascending lines 2 and 5. -/
theorem c6_intra_file_duplicates :
    findIntraFileDuplicatesL (extractPhpArrayKeysL c6Content) =
      [⟨"a".data, "a".data, 2, [1, 4]⟩, ⟨"b".data, "a.b".data, 2, [2, 5]⟩] := by
  decide

set_option maxRecDepth 4000 in
/-- C3 counterexample: merging the extraction results of four scanned files
with 26 locations each for the key `k` leaves 104 > 100 location records in
the tree-wide index — the 100 cap is applied per file by `extractKeys`, not
re-applied by the merge in `main`. -/
theorem c3_counterexample :
    100 < ((lookupLocs (mergeTreeLocations
        [extractKeysL c3Content "f1.js".data,
         extractKeysL c3Content "f2.js".data,
         extractKeysL c3Content "f3.js".data,
         extractKeysL c3Content "f4.js".data]) "k".data).getD []).length := by
  decide

theorem addLoc_bounded (locs : List (List Char × List KLoc)) (key : List Char)
    (loc : KLoc) (h : LocsBounded locs) : LocsBounded (addLoc locs key loc) := by
  induction locs with
  | nil =>
    intro kv hkv
    simp only [addLoc, List.mem_singleton] at hkv
    subst hkv
    simp
  | cons kv0 rest ih =>
    obtain ⟨k, v⟩ := kv0
    have hv : v.length ≤ 100 := h (k, v) (List.mem_cons_self _ _)
    have hrest : LocsBounded rest := fun kv hkv => h kv (List.mem_cons_of_mem _ hkv)
    by_cases hk : k = key
    · simp only [addLoc, hk, if_true]
      intro kv hkv
      rcases List.mem_cons.mp hkv with rfl | hkv2
      · by_cases hlt : v.length < 100
        · simp [hlt]
          omega
        · simp [hlt]
          exact hv
      · exact hrest kv hkv2
    · simp only [addLoc, hk, if_false]
      intro kv hkv
      rcases List.mem_cons.mp hkv with rfl | hkv2
      · exact hv
      · exact ih hrest kv hkv2

theorem processMatch_locations_bounded (file : List Char) (i : Nat)
    (origW : List (List Char)) (buf : List Char) (m : List Char × Nat)
    (st : ScanState) (h : LocsBounded st.locations) :
    LocsBounded (processMatch file i origW buf m st).locations := by
  unfold processMatch
  by_cases h1 : jsTrim m.1 ++ ':' :: natToChars (i + countCh '\n' (buf.take m.2) + 1) ∈ st.processed
  · simpa [h1] using h
  · by_cases h2 : validKey (jsTrim m.1)
    · simpa [h1, h2] using addLoc_bounded _ _ _ h
    · simpa [h1, h2] using h

theorem foldl_processMatch_bounded (file : List Char) (i : Nat)
    (origW : List (List Char)) (buf : List Char) :
    ∀ (ms : List (List Char × Nat)) (st : ScanState), LocsBounded st.locations →
      LocsBounded ((ms.foldl (fun s2 m => processMatch file i origW buf m s2) st).locations) := by
  intro ms
  induction ms with
  | nil => intro st h; exact h
  | cons m rest ih =>
    intro st h
    simp only [List.foldl_cons]
    exact ih _ (processMatch_locations_bounded file i origW buf m st h)

theorem foldl_callPats_bounded (file : List Char) (i : Nat)
    (origW : List (List Char)) (buf : List Char) :
    ∀ (ps : List CallPat) (st : ScanState), LocsBounded st.locations →
      LocsBounded ((ps.foldl
        (fun s p => (patScan p buf).foldl (fun s2 m => processMatch file i origW buf m s2) s)
        st).locations) := by
  intro ps
  induction ps with
  | nil => intro st h; exact h
  | cons p rest ih =>
    intro st h
    simp only [List.foldl_cons]
    exact ih _ (foldl_processMatch_bounded file i origW buf _ st h)

theorem addDyn_locations (file : List Char) (line : Nat) (snippet : List Char)
    (st : ScanState) : (addDyn file line snippet st).locations = st.locations := by
  simp only [addDyn]
  split <;> rfl

theorem dynFold_locations (file : List Char) (i : Nat) (cleanW : List (List Char))
    (buf : List Char) :
    ∀ (ds : List DynPat) (st : ScanState),
      ((ds.foldl
        (fun s d =>
          if dynTest d buf then
            match firstDynLine d cleanW 0 with
            | some (j, ln) => addDyn file (i + j + 1) ln s
            | none => s
          else s)
        st).locations) = st.locations := by
  intro ds
  induction ds with
  | nil => intro st; rfl
  | cons d rest ih =>
    intro st
    simp only [List.foldl_cons]
    rw [ih]
    by_cases h : dynTest d buf
    · simp only [h, if_true]
      cases hf : firstDynLine d cleanW 0 with
      | none => rfl
      | some jl =>
        obtain ⟨j, ln⟩ := jl
        exact addDyn_locations _ _ _ _
    · simp [h]

theorem stepWindow_bounded (file : List Char) (i : Nat)
    (origW cleanW : List (List Char)) (st : ScanState)
    (h : LocsBounded st.locations) :
    LocsBounded (stepWindow file i origW cleanW st).locations := by
  unfold stepWindow
  dsimp only
  rw [dynFold_locations]
  exact foldl_callPats_bounded file i origW _ callPats st h

theorem scanLoop_bounded (file : List Char) :
    ∀ (orig clean : List (List Char)) (i : Nat) (st : ScanState),
      LocsBounded st.locations →
      LocsBounded (scanLoop file orig clean i st).locations := by
  intro orig
  induction orig with
  | nil => intro clean i st h; exact h
  | cons o orest ih =>
    intro clean i st h
    cases clean with
    | nil => exact ih [] (i + 1) _ (stepWindow_bounded file i _ _ st h)
    | cons cl crest => exact ih crest (i + 1) _ (stepWindow_bounded file i _ _ st h)

theorem lookupLocs_bounded (locs : List (List Char × List KLoc)) (key : List Char)
    (h : LocsBounded locs) : ((lookupLocs locs key).getD []).length ≤ 100 := by
  induction locs with
  | nil => simp [lookupLocs]
  | cons kv rest ih =>
    obtain ⟨k, v⟩ := kv
    by_cases hk : k = key
    · simp only [lookupLocs, hk, if_true]
      exact h (k, v) (List.mem_cons_self _ _)
    · simp only [lookupLocs, hk, if_false]
      exact ih (fun kv2 hkv2 => h kv2 (List.mem_cons_of_mem _ hkv2))

/-- The per-file location cap: every key of every extraction result has at
most 100 stored locations. -/
theorem extractKeys_cap_le :
    ∀ (content file : String) (key : List Char),
      ((lookupLocs (extractKeys content file).locations key).getD []).length ≤ 100 := by
  intro content file key
  apply lookupLocs_bounded
  apply scanLoop_bounded
  intro kv hkv
  simp [emptyScan] at hkv

theorem step_W2_empty (i : Nat) :
    stepWindow c4File i [c4l1, c4l2, c4l3] [c4l1, c4l2, c4l3] emptyScan = c4State (i + 1) := by
  have e1 : patScan pat1 (joinNL [c4l1, c4l2, c4l3]) = [("a.b".data, 0)] := by decide
  have e2 : patScan pat2 (joinNL [c4l1, c4l2, c4l3]) = [] := by decide
  have e3 : patScan pat3 (joinNL [c4l1, c4l2, c4l3]) = [] := by decide
  have e4 : patScan pat4 (joinNL [c4l1, c4l2, c4l3]) = [] := by decide
  have e5 : patScan pat5 (joinNL [c4l1, c4l2, c4l3]) = [] := by decide
  have e6 : patScan pat6 (joinNL [c4l1, c4l2, c4l3]) = [] := by decide
  have e7 : patScan pat7 (joinNL [c4l1, c4l2, c4l3]) = [] := by decide
  have e8 : patScan pat8 (joinNL [c4l1, c4l2, c4l3]) = [] := by decide
  have e9 : patScan pat9 (joinNL [c4l1, c4l2, c4l3]) = [] := by decide
  have d1 : dynTest dyn1 (joinNL [c4l1, c4l2, c4l3]) = false := by decide
  have d2 : dynTest dyn2 (joinNL [c4l1, c4l2, c4l3]) = false := by decide
  have d3 : dynTest dyn3 (joinNL [c4l1, c4l2, c4l3]) = false := by decide
  have htrim : jsTrim "a.b".data = "a.b".data := by decide
  have hnl : countCh '\n' ((joinNL [c4l1, c4l2, c4l3]).take 0) = 0 := by decide
  have hvk : validKey "a.b".data = true := by decide
  have hsnip : jsTrim ([c4l1, c4l2, c4l3].getD 0 []) = "__(".data := by decide
  simp only [stepWindow, callPats, dynPats, List.foldl_cons, List.foldl_nil,
    e1, e2, e3, e4, e5, e6, e7, e8, e9, d1, d2, d3, Bool.false_eq_true, if_false]
  simp only [processMatch, htrim, hnl, hvk, hsnip, emptyScan, Nat.add_zero,
    List.not_mem_nil, if_false, if_true, setAdd, addLoc, List.nil_append, c4State]

theorem step_W1_empty (i : Nat) :
    stepWindow c4File i [[], c4l1, c4l2] [[], c4l1, c4l2] emptyScan = c4State (i + 2) := by
  have e1 : patScan pat1 (joinNL [[], c4l1, c4l2]) = [("a.b".data, 1)] := by decide
  have e2 : patScan pat2 (joinNL [[], c4l1, c4l2]) = [] := by decide
  have e3 : patScan pat3 (joinNL [[], c4l1, c4l2]) = [] := by decide
  have e4 : patScan pat4 (joinNL [[], c4l1, c4l2]) = [] := by decide
  have e5 : patScan pat5 (joinNL [[], c4l1, c4l2]) = [] := by decide
  have e6 : patScan pat6 (joinNL [[], c4l1, c4l2]) = [] := by decide
  have e7 : patScan pat7 (joinNL [[], c4l1, c4l2]) = [] := by decide
  have e8 : patScan pat8 (joinNL [[], c4l1, c4l2]) = [] := by decide
  have e9 : patScan pat9 (joinNL [[], c4l1, c4l2]) = [] := by decide
  have d1 : dynTest dyn1 (joinNL [[], c4l1, c4l2]) = false := by decide
  have d2 : dynTest dyn2 (joinNL [[], c4l1, c4l2]) = false := by decide
  have d3 : dynTest dyn3 (joinNL [[], c4l1, c4l2]) = false := by decide
  have htrim : jsTrim "a.b".data = "a.b".data := by decide
  have hnl : countCh '\n' ((joinNL [[], c4l1, c4l2]).take 1) = 1 := by decide
  have hvk : validKey "a.b".data = true := by decide
  have hsnip : jsTrim ([[], c4l1, c4l2].getD 1 []) = "__(".data := by decide
  simp only [stepWindow, callPats, dynPats, List.foldl_cons, List.foldl_nil,
    e1, e2, e3, e4, e5, e6, e7, e8, e9, d1, d2, d3, Bool.false_eq_true, if_false]
  simp only [processMatch, htrim, hnl, hvk, hsnip, emptyScan,
    List.not_mem_nil, if_false, if_true, setAdd, addLoc, List.nil_append, c4State,
    Nat.add_assoc]

theorem step_W2_dedup (j : Nat) (origW : List (List Char)) :
    stepWindow c4File j origW [c4l1, c4l2, c4l3] (c4State (j + 1)) = c4State (j + 1) := by
  have e1 : patScan pat1 (joinNL [c4l1, c4l2, c4l3]) = [("a.b".data, 0)] := by decide
  have e2 : patScan pat2 (joinNL [c4l1, c4l2, c4l3]) = [] := by decide
  have e3 : patScan pat3 (joinNL [c4l1, c4l2, c4l3]) = [] := by decide
  have e4 : patScan pat4 (joinNL [c4l1, c4l2, c4l3]) = [] := by decide
  have e5 : patScan pat5 (joinNL [c4l1, c4l2, c4l3]) = [] := by decide
  have e6 : patScan pat6 (joinNL [c4l1, c4l2, c4l3]) = [] := by decide
  have e7 : patScan pat7 (joinNL [c4l1, c4l2, c4l3]) = [] := by decide
  have e8 : patScan pat8 (joinNL [c4l1, c4l2, c4l3]) = [] := by decide
  have e9 : patScan pat9 (joinNL [c4l1, c4l2, c4l3]) = [] := by decide
  have d1 : dynTest dyn1 (joinNL [c4l1, c4l2, c4l3]) = false := by decide
  have d2 : dynTest dyn2 (joinNL [c4l1, c4l2, c4l3]) = false := by decide
  have d3 : dynTest dyn3 (joinNL [c4l1, c4l2, c4l3]) = false := by decide
  have htrim : jsTrim "a.b".data = "a.b".data := by decide
  have hnl : countCh '\n' ((joinNL [c4l1, c4l2, c4l3]).take 0) = 0 := by decide
  simp only [stepWindow, callPats, dynPats, List.foldl_cons, List.foldl_nil,
    e1, e2, e3, e4, e5, e6, e7, e8, e9, d1, d2, d3, Bool.false_eq_true, if_false]
  simp only [processMatch, htrim, hnl, c4State, Nat.add_zero,
    List.mem_singleton, List.mem_cons, if_true, if_pos, List.cons.injEq]
  simp

theorem callFold_id (file : List Char) (i : Nat) (origW : List (List Char))
    (buf : List Char) :
    ∀ (ps : List CallPat) (st : ScanState), (∀ p ∈ ps, patScan p buf = []) →
      ps.foldl
        (fun s p => (patScan p buf).foldl (fun s2 m => processMatch file i origW buf m s2) s)
        st = st := by
  intro ps
  induction ps with
  | nil => intro st _; rfl
  | cons p rest ih =>
    intro st h
    simp only [List.foldl_cons]
    rw [h p (List.mem_cons_self _ _)]
    exact ih st (fun q hq => h q (List.mem_cons_of_mem _ hq))

theorem dynFold_id (file : List Char) (i : Nat) (cleanW : List (List Char))
    (buf : List Char) :
    ∀ (ds : List DynPat) (st : ScanState), (∀ d ∈ ds, dynTest d buf = false) →
      ds.foldl
        (fun s d =>
          if dynTest d buf then
            match firstDynLine d cleanW 0 with
            | some (j, ln) => addDyn file (i + j + 1) ln s
            | none => s
          else s)
        st = st := by
  intro ds
  induction ds with
  | nil => intro st _; rfl
  | cons d rest ih =>
    intro st h
    simp only [List.foldl_cons, h d (List.mem_cons_self _ _), Bool.false_eq_true, if_false]
    exact ih st (fun q hq => h q (List.mem_cons_of_mem _ hq))

theorem stepWindow_id (file : List Char) (i : Nat) (origW w : List (List Char))
    (st : ScanState) (h : noMatchW w = true) :
    stepWindow file i origW w st = st := by
  unfold noMatchW at h
  rw [Bool.and_eq_true] at h
  obtain ⟨hc, hd⟩ := h
  rw [List.all_eq_true] at hc hd
  unfold stepWindow
  dsimp only
  rw [callFold_id file i origW (joinNL w) callPats st
    (fun p hp => List.isEmpty_iff.mp (hc p hp))]
  exact dynFold_id file i w (joinNL w) dynPats st
    (fun d hd2 => by simpa using hd d hd2)

theorem tailBlanks (file : List Char) :
    ∀ (m : Nat) (i : Nat) (st : ScanState),
      scanLoop file (List.replicate m []) (List.replicate m []) i st = st := by
  intro m
  induction m with
  | zero => intro i st; rfl
  | succ m ih =>
    intro i st
    have nm : noMatchW ((List.replicate (m + 1) ([] : List Char)).take 3) = true := by
      match m with
      | 0 => decide
      | 1 => decide
      | k + 2 =>
        show noMatchW (([] : List Char) :: (List.replicate (k + 2) []).take 2) = true
        rw [show (List.replicate (k + 2) ([] : List Char)).take 2 = [[], []] from by
          simp [List.replicate_succ, List.take]]
        decide
    calc scanLoop file (List.replicate (m + 1) []) (List.replicate (m + 1) []) i st
        = scanLoop file (List.replicate m []) (List.replicate m []) (i + 1)
            (stepWindow file i ((List.replicate (m + 1) []).take 3)
              ((List.replicate (m + 1) []).take 3) st) := by
          rw [List.replicate_succ]
          rfl
      _ = st := by rw [stepWindow_id _ _ _ _ _ nm]; exact ih (i + 1) st

theorem afterCall : ∀ (m : Nat) (j : Nat) (st : ScanState),
    scanLoop c4File (c4l2 :: c4l3 :: List.replicate m []) (c4l2 :: c4l3 :: List.replicate m []) j st = st := by
  intro m j st
  have nm1 : noMatchW ((c4l2 :: c4l3 :: List.replicate m ([] : List Char)).take 3) = true := by
    rcases m with _ | k
    · decide
    · rw [List.replicate_succ]
      show noMatchW (c4l2 :: c4l3 :: ([] : List Char) :: (List.replicate k []).take 0) = true
      rw [List.take_zero]
      decide
  have step1 : scanLoop c4File (c4l2 :: c4l3 :: List.replicate m []) (c4l2 :: c4l3 :: List.replicate m []) j st
      = scanLoop c4File (c4l3 :: List.replicate m []) (c4l3 :: List.replicate m []) (j + 1)
          (stepWindow c4File j ((c4l2 :: c4l3 :: List.replicate m []).take 3)
            ((c4l2 :: c4l3 :: List.replicate m []).take 3) st) := rfl
  rw [step1, stepWindow_id _ _ _ _ _ nm1]
  have nm2 : noMatchW ((c4l3 :: List.replicate m ([] : List Char)).take 3) = true := by
    rcases m with _ | _ | k
    · decide
    · decide
    · rw [List.replicate_succ, List.replicate_succ]
      show noMatchW (c4l3 :: ([] : List Char) :: ([] : List Char) :: (List.replicate k []).take 0) = true
      rw [List.take_zero]
      decide
  have step2 : scanLoop c4File (c4l3 :: List.replicate m []) (c4l3 :: List.replicate m []) (j + 1) st
      = scanLoop c4File (List.replicate m []) (List.replicate m []) (j + 2)
          (stepWindow c4File (j + 1) ((c4l3 :: List.replicate m []).take 3)
            ((c4l3 :: List.replicate m []).take 3) st) := rfl
  rw [step2, stepWindow_id _ _ _ _ _ nm2]
  exact tailBlanks c4File m (j + 2) st

theorem core0 : ∀ (j m : Nat),
    scanLoop c4File (c4l1 :: c4l2 :: c4l3 :: List.replicate m []) (c4l1 :: c4l2 :: c4l3 :: List.replicate m []) j emptyScan
      = c4State (j + 1) := by
  intro j m
  have hw : ((c4l1 :: c4l2 :: c4l3 :: List.replicate m ([] : List Char)).take 3) = [c4l1, c4l2, c4l3] := by
    simp
  have step1 : scanLoop c4File (c4l1 :: c4l2 :: c4l3 :: List.replicate m []) (c4l1 :: c4l2 :: c4l3 :: List.replicate m []) j emptyScan
      = scanLoop c4File (c4l2 :: c4l3 :: List.replicate m []) (c4l2 :: c4l3 :: List.replicate m []) (j + 1)
          (stepWindow c4File j ((c4l1 :: c4l2 :: c4l3 :: List.replicate m []).take 3)
            ((c4l1 :: c4l2 :: c4l3 :: List.replicate m []).take 3) emptyScan) := rfl
  rw [step1, hw, step_W2_empty j]
  exact afterCall m (j + 1) _

theorem core1 : ∀ (j m : Nat),
    scanLoop c4File ([] :: c4l1 :: c4l2 :: c4l3 :: List.replicate m []) ([] :: c4l1 :: c4l2 :: c4l3 :: List.replicate m []) j emptyScan
      = c4State (j + 2) := by
  intro j m
  have hw : (([] :: c4l1 :: c4l2 :: c4l3 :: List.replicate m ([] : List Char)).take 3) = [[], c4l1, c4l2] := by
    simp
  have step1 : scanLoop c4File ([] :: c4l1 :: c4l2 :: c4l3 :: List.replicate m []) ([] :: c4l1 :: c4l2 :: c4l3 :: List.replicate m []) j emptyScan
      = scanLoop c4File (c4l1 :: c4l2 :: c4l3 :: List.replicate m []) (c4l1 :: c4l2 :: c4l3 :: List.replicate m []) (j + 1)
          (stepWindow c4File j (([] :: c4l1 :: c4l2 :: c4l3 :: List.replicate m []).take 3)
            (([] :: c4l1 :: c4l2 :: c4l3 :: List.replicate m []).take 3) emptyScan) := rfl
  rw [step1, hw, step_W1_empty j]
  have hw2 : ((c4l1 :: c4l2 :: c4l3 :: List.replicate m ([] : List Char)).take 3) = [c4l1, c4l2, c4l3] := by
    simp
  have step2 : scanLoop c4File (c4l1 :: c4l2 :: c4l3 :: List.replicate m []) (c4l1 :: c4l2 :: c4l3 :: List.replicate m []) (j + 1) (c4State (j + 2))
      = scanLoop c4File (c4l2 :: c4l3 :: List.replicate m []) (c4l2 :: c4l3 :: List.replicate m []) (j + 2)
          (stepWindow c4File (j + 1) ((c4l1 :: c4l2 :: c4l3 :: List.replicate m []).take 3)
            ((c4l1 :: c4l2 :: c4l3 :: List.replicate m []).take 3) (c4State (j + 2))) := rfl
  rw [step2, hw2]
  have he : j + 2 = j + 1 + 1 := by omega
  rw [he, step_W2_dedup (j + 1)]
  exact afterCall m (j + 2) _

theorem c4Main : ∀ (n j m : Nat),
    scanLoop c4File (List.replicate n [] ++ c4l1 :: c4l2 :: c4l3 :: List.replicate m [])
      (List.replicate n [] ++ c4l1 :: c4l2 :: c4l3 :: List.replicate m []) j emptyScan
      = c4State (j + n + 1) := by
  intro n
  induction n using Nat.strong_induction_on with
  | _ n ih =>
    match n with
    | 0 =>
      intro j m
      simpa using core0 j m
    | 1 =>
      intro j m
      have : (List.replicate 1 ([] : List Char)) ++ c4l1 :: c4l2 :: c4l3 :: List.replicate m [] =
          [] :: c4l1 :: c4l2 :: c4l3 :: List.replicate m [] := rfl
      rw [this]
      simpa using core1 j m
    | k + 2 =>
      intro j m
      have hsh : List.replicate (k + 2) ([] : List Char) ++ c4l1 :: c4l2 :: c4l3 :: List.replicate m [] =
          [] :: [] :: (List.replicate k [] ++ c4l1 :: c4l2 :: c4l3 :: List.replicate m []) := by
        simp [List.replicate_succ]
      rw [hsh]
      have nm : noMatchW ((([] : List Char) :: [] :: (List.replicate k [] ++ c4l1 :: c4l2 :: c4l3 :: List.replicate m [])).take 3) = true := by
        rcases k with _ | k2
        · show noMatchW (([] : List Char) :: [] :: (c4l1 :: c4l2 :: c4l3 :: List.replicate m []).take 1) = true
          rw [show (c4l1 :: c4l2 :: c4l3 :: List.replicate m ([] : List Char)).take 1 = [c4l1] from rfl]
          decide
        · rw [List.replicate_succ]
          show noMatchW (([] : List Char) :: [] :: (([] : List Char) :: (List.replicate k2 [] ++ c4l1 :: c4l2 :: c4l3 :: List.replicate m [])).take 1) = true
          rw [show (([] : List Char) :: (List.replicate k2 [] ++ c4l1 :: c4l2 :: c4l3 :: List.replicate m [])).take 1 = [[]] from rfl]
          decide
      have step1 : scanLoop c4File ([] :: [] :: (List.replicate k [] ++ c4l1 :: c4l2 :: c4l3 :: List.replicate m []))
          ([] :: [] :: (List.replicate k [] ++ c4l1 :: c4l2 :: c4l3 :: List.replicate m [])) j emptyScan
          = scanLoop c4File ([] :: (List.replicate k [] ++ c4l1 :: c4l2 :: c4l3 :: List.replicate m []))
              ([] :: (List.replicate k [] ++ c4l1 :: c4l2 :: c4l3 :: List.replicate m [])) (j + 1)
              (stepWindow c4File j
                ((([] : List Char) :: [] :: (List.replicate k [] ++ c4l1 :: c4l2 :: c4l3 :: List.replicate m [])).take 3)
                ((([] : List Char) :: [] :: (List.replicate k [] ++ c4l1 :: c4l2 :: c4l3 :: List.replicate m [])).take 3)
                emptyScan) := rfl
      rw [step1, stepWindow_id _ _ _ _ _ nm]
      have hsh2 : ([] : List Char) :: (List.replicate k [] ++ c4l1 :: c4l2 :: c4l3 :: List.replicate m []) =
          List.replicate (k + 1) [] ++ c4l1 :: c4l2 :: c4l3 :: List.replicate m [] := by
        simp [List.replicate_succ]
      rw [hsh2]
      rw [ih (k + 1) (by omega) (j + 1) m]
      have : j + 1 + (k + 1) + 1 = j + (k + 2) + 1 := by omega
      rw [this]

theorem splitLinesL_no_nl : ∀ (l : List Char), '\n' ∉ l → splitLinesL l = [l] := by
  intro l
  induction l with
  | nil => intro _; rfl
  | cons c rest ih =>
    intro h
    have hc : ¬ c = '\n' := fun e => h (e ▸ List.mem_cons_self c rest)
    have hr : '\n' ∉ rest := fun hm => h (List.mem_cons_of_mem c hm)
    simp only [splitLinesL, hc, if_false, ih hr]

theorem splitLinesL_append_nl : ∀ (l s : List Char), '\n' ∉ l →
    splitLinesL (l ++ '\n' :: s) = l :: splitLinesL s := by
  intro l
  induction l with
  | nil =>
    intro s _
    simp [splitLinesL]
  | cons c rest ih =>
    intro s h
    have hc : ¬ c = '\n' := fun e => h (e ▸ List.mem_cons_self c rest)
    have hr : '\n' ∉ rest := fun hm => h (List.mem_cons_of_mem c hm)
    simp only [List.cons_append, splitLinesL, hc, if_false]
    rw [List.append_eq, ih s hr]

theorem joinNL_split : ∀ (L : List (List Char)), L ≠ [] → (∀ l ∈ L, '\n' ∉ l) →
    splitLinesL (joinNL L) = L := by
  intro L
  induction L with
  | nil => intro h _; exact absurd rfl h
  | cons l rest ih =>
    intro _ hall
    cases rest with
    | nil => exact splitLinesL_no_nl l (hall l (List.mem_cons_self l []))
    | cons c4l2 rest2 =>
      have hj : joinNL (l :: c4l2 :: rest2) = l ++ '\n' :: joinNL (c4l2 :: rest2) := rfl
      rw [hj, splitLinesL_append_nl l _ (hall l (List.mem_cons_self _ _))]
      rw [ih (List.cons_ne_nil c4l2 rest2) (fun x hx => hall x (List.mem_cons_of_mem l hx))]

theorem c4Lines_split (n m : Nat) : splitLinesL (c4content n m) = c4Lines n m := by
  apply joinNL_split
  · intro h
    have := congrArg List.length h
    simp [c4Lines] at this
  · intro l hl
    unfold c4Lines at hl
    rcases List.mem_append.mp hl with h | h
    · rw [List.eq_of_mem_replicate h]
      exact List.not_mem_nil _
    · rcases List.mem_cons.mp h with rfl | h
      · decide
      · rcases List.mem_cons.mp h with rfl | h
        · decide
        · rcases List.mem_cons.mp h with rfl | h
          · decide
          · rw [List.eq_of_mem_replicate h]
            exact List.not_mem_nil _

theorem c4_strip (content : List Char) :
    stripCommentsL content "app.txt".data = content := by
  unfold stripCommentsL
  have h1 : isPhpPath "app.txt".data = false := by decide
  have h2 : isJsPath "app.txt".data = false := by decide
  simp [h1, h2]

/-- C4: for a file consisting of a translate call whose quoted literal spans
3 consecutive lines, preceded by `n` and followed by `m` unrelated (blank)
lines — i.e. with the call moved to start at any line of the file — the
extractor records exactly one `(key, line)` pair: the key set is exactly
`a.b`, its location list is exactly one record at source line `n + 1`, and
no dynamic keys are reported, because the overlapping 3-line windows that
rediscover the same match are deduplicated by the `(key, line)` identity. -/
theorem c4_sliding_window_single_record : ∀ n m : Nat,
    (extractKeysL (c4content n m) "app.txt".data).keys = ["a.b".data] ∧
    ((lookupLocs (extractKeysL (c4content n m) "app.txt".data).locations "a.b".data).getD [])
      = [⟨"app.txt".data, n + 1, "__(".data⟩] ∧
    (extractKeysL (c4content n m) "app.txt".data).dynamicKeys = [] := by
  intro n m
  have hk : extractKeysL (c4content n m) "app.txt".data = c4State (0 + n + 1) := by
    unfold extractKeysL
    rw [c4_strip, c4Lines_split]
    exact c4Main n 0 m
  rw [hk]
  have hz : 0 + n + 1 = n + 1 := by omega
  rw [hz]
  refine ⟨rfl, ?_, rfl⟩
  simp [c4State, lookupLocs, c4File, c4l1]

theorem iterFullW_add (file : List Char) :
    ∀ (a b i : Nat) (st : ScanState),
      iterFullW file (a + b) i st = iterFullW file b (i + a) (iterFullW file a i st) := by
  intro a
  induction a with
  | zero =>
    intro b i st
    simp [iterFullW]
  | succ a ih =>
    intro b i st
    have h1 : a + 1 + b = (a + b) + 1 := by omega
    rw [h1]
    show iterFullW file (a + b) (i + 1)
        (stepWindow file i [c3Line, c3Line, c3Line] [c3Line, c3Line, c3Line] st) =
      iterFullW file b (i + (a + 1))
        (iterFullW file a (i + 1)
          (stepWindow file i [c3Line, c3Line, c3Line] [c3Line, c3Line, c3Line] st))
    rw [ih b (i + 1) _]
    have h2 : i + 1 + a = i + (a + 1) := by omega
    rw [h2]

/-- While at least three lines of the uniform file remain, the scan loop is
`iterFullW` followed by the run on the last two lines. -/
theorem scanLoop_replicate_full (file : List Char) :
    ∀ (k i : Nat) (st : ScanState),
      scanLoop file (List.replicate (k + 2) c3Line) (List.replicate (k + 2) c3Line) i st =
      scanLoop file (List.replicate 2 c3Line) (List.replicate 2 c3Line) (i + k)
        (iterFullW file k i st) := by
  intro k
  induction k with
  | zero =>
    intro i st
    simp [iterFullW]
  | succ k ih =>
    intro i st
    have hr : List.replicate (k + 1 + 2) c3Line = c3Line :: List.replicate (k + 2) c3Line := by
      rw [show k + 1 + 2 = (k + 2) + 1 from by omega, List.replicate_succ]
    rw [hr]
    have hw : ((c3Line :: List.replicate (k + 2) c3Line).take 3) = [c3Line, c3Line, c3Line] := by
      rw [show k + 2 = (k + 1) + 1 from by omega, List.replicate_succ,
        show k + 1 = k + 1 from rfl, List.replicate_succ]
      rfl
    have hstep : scanLoop file (c3Line :: List.replicate (k + 2) c3Line)
        (c3Line :: List.replicate (k + 2) c3Line) i st =
        scanLoop file (List.replicate (k + 2) c3Line) (List.replicate (k + 2) c3Line) (i + 1)
          (stepWindow file i ((c3Line :: List.replicate (k + 2) c3Line).take 3)
            ((c3Line :: List.replicate (k + 2) c3Line).take 3) st) := rfl
    rw [hstep, hw, ih (i + 1) _]
    have h2 : i + 1 + k = i + (k + 1) := by omega
    rw [h2]
    rfl

set_option maxRecDepth 4000 in
theorem c3_chunk1 : iterFullW "f1.js".data 33 0 emptyScan = c3At 33 := by decide

set_option maxRecDepth 4000 in
theorem c3_chunk2 : iterFullW "f1.js".data 33 33 (c3At 33) = c3At 66 := by decide

set_option maxRecDepth 4000 in
theorem c3_chunk3 : iterFullW "f1.js".data 33 66 (c3At 66) = c3At 99 := by decide

set_option maxRecDepth 4000 in
theorem c3_tail :
    scanLoop "f1.js".data (List.replicate 2 c3Line) (List.replicate 2 c3Line) 99 (c3At 99) =
      c3At 99 := by
  decide

set_option maxRecDepth 4000 in
theorem c3_big_split : splitLinesL c3BigContent = List.replicate 101 c3Line := by decide

set_option maxRecDepth 4000 in
theorem c3_big_strip : stripCommentsL c3BigContent "f1.js".data = c3BigContent := by decide

/-- The full extraction result of the 101-line file: all 101 matches are
tracked in the processed-id set, the key is in the key set, and exactly the
first 100 locations are stored. -/
theorem c3_big_eval : extractKeysL c3BigContent "f1.js".data = c3At 99 := by
  unfold extractKeysL
  rw [c3_big_strip, c3_big_split]
  rw [show (101 : Nat) = 99 + 2 from rfl]
  rw [scanLoop_replicate_full "f1.js".data 99 0 emptyScan]
  have h99 : iterFullW "f1.js".data 99 0 emptyScan = c3At 99 := by
    rw [show (99 : Nat) = 66 + 33 from rfl, iterFullW_add]
    rw [show (66 : Nat) = 33 + 33 from rfl, iterFullW_add]
    rw [c3_chunk1]
    rw [show (0 + 33 : Nat) = 33 from rfl, c3_chunk2]
    rw [show (0 + (33 + 33) : Nat) = 66 from rfl, c3_chunk3]
  rw [h99, show (0 + 99 : Nat) = 99 from rfl]
  exact c3_tail

/-- C3 (amended): within a single file's extraction result every key has at
most 100 stored locations — the cap is enforced per file by `extractKeys`;
on a file with 101 matches of the key `k` (one past the cap) the key is
still present in the key set and the 101st match is still tracked in the
dedup set, but no further location is stored (exactly 100 remain); the
tree-wide merge in `main` concatenates the per-file lists without
re-applying the cap, so the merged index can exceed 100 (see the
counterexample). -/
theorem c3_amended_per_file_cap :
    (∀ (content file : String) (key : List Char),
        ((lookupLocs (extractKeys content file).locations key).getD []).length ≤ 100) ∧
    "k".data ∈ (extractKeysL c3BigContent "f1.js".data).keys ∧
    ((lookupLocs (extractKeysL c3BigContent "f1.js".data).locations "k".data).getD []).length
      = 100 ∧
    ("k".data ++ ':' :: natToChars 101) ∈ (extractKeysL c3BigContent "f1.js".data).processed := by
  refine ⟨extractKeys_cap_le, ?_, ?_, ?_⟩
  · rw [c3_big_eval]
    decide
  · rw [c3_big_eval]
    decide
  · rw [c3_big_eval]
    decide

end I18nAudit
